import Mathlib

/-!
Verification of the path/URL normalization core of the `thingts/path`
library.  Strings are modelled as lists of characters (`Str`); each
definition below is a direct shallow embedding of the corresponding
TypeScript function (path-tools, filename-tools, url-tools, PathBase,
AbsolutePath, RelativePath, UrlBase, RootPathUrl, RelativePathUrl).
JavaScript exceptions are modelled with `Except`, `undefined`-able
values with `Option`.
-/

/-- Strings as lists of characters. -/
abbrev Str := List Char

/-- Conversion from Lean string literals, used for concrete inputs. -/
def strL (s : String) : Str := s.data

namespace TPath

/-- The path separator (`PATH_SEPARATOR = '/'`). -/
def sep : Char := '/'

/-- The `'..'` segment. -/
def dd : Str := ['.', '.']

/-- JavaScript `s.split(c)`: always returns at least one (possibly empty) field. -/
def splitOnChar (c : Char) : Str → List Str
  | [] => [[]]
  | a :: rest =>
    match splitOnChar c rest with
    | [] => if a = c then [[], []] else [[a]]
    | s :: ss => if a = c then [] :: s :: ss else (a :: s) :: ss

/-- JavaScript `parts.join(c)`. -/
def joinChar (c : Char) : List Str → Str
  | [] => []
  | [s] => s
  | s :: rest => s ++ c :: joinChar c rest

/-- Index of the first occurrence of a character (JS `indexOf`, `none` for `-1`). -/
def idxOf? (c : Char) : Str → Option Nat
  | [] => none
  | a :: rest => if a = c then some 0 else (idxOf? c rest).map (· + 1)

/-- Index of the last occurrence of a character (JS `lastIndexOf`, `none` for `-1`). -/
def lastIdxOf? (c : Char) (s : Str) : Option Nat :=
  (idxOf? c s.reverse).map (fun i => s.length - 1 - i)

/-- JS truthiness test of a string: nonempty. -/
def strTruthy (s : Str) : Bool := !s.isEmpty

/-- `isAbsolute` from path-tools: the string starts with the separator. -/
def isAbsolute (p : Str) : Bool :=
  match p with
  | c :: _ => c = sep
  | [] => false

/-- One iteration of the `normalizeSegments` loop of path-tools: drop empty
and `'.'` segments, pop on `'..'` unless the stack is empty or its top is
`'..'`, push otherwise. -/
def normStep (acc : List Str) (seg : Str) : List Str :=
  if seg = [] ∨ seg = ['.'] then acc
  else if seg = dd ∧ acc ≠ [] ∧ acc.getLast? ≠ some dd then acc.dropLast
  else acc ++ [seg]

/-- The `normalizeSegments` loop of path-tools, kept as a segment list. -/
def normalizeSegmentsList (segs : List Str) : List Str :=
  segs.foldl normStep []

/-- `normalizeSegments` from path-tools (returns the joined string). -/
def normalizeSegments (segs : List Str) : Str :=
  joinChar sep (normalizeSegmentsList segs)

/-- The suffix of the filtered segment list processed by the `resolve` mode
of `joinOrResolve`: walking from the end, stop at the first absolute
segment (JS `break`).  Returns `none` when no segment is absolute. -/
def takeFromLastAbs : List Str → Option (List Str)
  | [] => none
  | s :: rest =>
    match takeFromLastAbs rest with
    | some r => some r
    | none => if isAbsolute s then some (s :: rest) else none

/-- `joinOrResolve` from path-tools.  `isResolve = true` is `resolve` mode. -/
def joinOrResolve (isResolve : Bool) (segs : List Str) : Str :=
  let filtered := segs.filter strTruthy
  let chosen : List Str × Option Str :=
    match (if isResolve then takeFromLastAbs filtered else none) with
    | some suffix => (suffix, suffix.head?)
    | none => (filtered, segs.head?)
  let resolvedParts := (chosen.1.map (splitOnChar sep)).foldr (· ++ ·) []
  (if (chosen.2.map isAbsolute).getD false then [sep] else []) ++
    normalizeSegments resolvedParts

/-- `resolve(...segments)` from path-tools. -/
def resolveP (segs : List Str) : Str := joinOrResolve true segs

/-- `join(...segments)` from path-tools. -/
def joinP (segs : List Str) : Str := joinOrResolve false segs

/-- `normalize(p)` from path-tools. -/
def normalize (p : Str) : Str :=
  let n0 := normalizeSegments (splitOnChar sep p)
  let n1 := if isAbsolute p then sep :: n0 else n0
  let n2 := if n1.take 2 = ['.', sep] then n1.drop 2 else n1
  if n2 = [sep] then n2
  else
    let n3 := if n2.getLast? = some sep then n2.dropLast else n2
    if n3 = [] then ['.'] else n3

/-- Length of the longest common segment run, mirroring the `while` loop in
`relative` from path-tools. -/
def lcpLen : List Str → List Str → Nat
  | a :: as, b :: bs => if a = b then lcpLen as bs + 1 else 0
  | _, _ => 0

/-- `relative(from, to)` from path-tools. -/
def relative (f t : Str) : Str :=
  let fromParts := (splitOnChar sep (resolveP [f])).filter strTruthy
  let toParts := (splitOnChar sep (resolveP [t])).filter strTruthy
  let i := lcpLen fromParts toParts
  let res := joinChar sep (List.replicate (fromParts.length - i) dd ++ toParts.drop i)
  if res = [] then ['.'] else res

/-- The trailing-separator stripping loop of `dirname` (keeps one character
when the whole string is separators). -/
def stripTrailingSeps (p : Str) : Str :=
  let r := p.reverse.dropWhile (fun c => c = sep)
  if r = [] then p.take 1 else r.reverse

/-- `dirname(p)` from path-tools. -/
def dirname (p : Str) : Str :=
  if p = [] then ['.']
  else
    let p1 := stripTrailingSeps p
    match lastIdxOf? sep p1 with
    | none => ['.']
    | some 0 => [sep]
    | some i => p1.take i

/-- `conformAbsolute(p, absolute)` from path-tools. -/
def conformAbsolute (p : Str) (absolute : Bool) : Str :=
  if absolute then (if isAbsolute p then p else sep :: p)
  else (if isAbsolute p then p.dropWhile (fun c => c = sep) else p)

/-- `basename(filename)` from filename-tools. -/
def basename (p : Str) : Str :=
  p.drop (match lastIdxOf? sep p with | some i => i + 1 | none => 0)

/-- `extname(filename)` from filename-tools (`-1` sentinels as `Int`). -/
def extname (f : Str) : Str :=
  let dot : Int := match lastIdxOf? '.' f with | some i => (i : Int) | none => -1
  let sp : Int := match lastIdxOf? sep f with | some i => (i : Int) | none => -1
  if dot > 0 ∧ dot > sp then f.drop dot.toNat else []

/-- `basename(filename, ext)` from filename-tools. -/
def basenameExt (f ext : Str) : Str :=
  let base := basename f
  if strTruthy ext ∧ ext.isSuffixOf base then base.take (base.length - ext.length)
  else base

/-- The `AbsolutePath` constructor: rejects non-absolute input, stores
`normalize(resolve(path))` (the `PathBase` constructor normalizes). -/
def absolutePathNew (p : Str) : Option Str :=
  if isAbsolute p then some (normalize (resolveP [p])) else none

/-- The `RelativePath` constructor: rejects absolute input, stores
`normalize(path)`. -/
def relativePathNew (p : Str) : Option Str :=
  if isAbsolute p then none else some (normalize p)

/-- `cloneWithPath` on an absolute instance: conform, then re-run the
`AbsolutePath` constructor pipeline. -/
def cloneAbs (x : Str) : Str := normalize (resolveP [conformAbsolute x true])

/-- `cloneWithPath` on a relative instance: conform, then re-run the
`RelativePath` constructor pipeline. -/
def cloneRel (x : Str) : Str := normalize (conformAbsolute x false)

/-- `PathBase.join` on an absolute instance (arguments already stringified;
falsy arguments are filtered by the TypeScript wrapper). -/
def absJoin (p : Str) (args : List Str) : Str :=
  cloneAbs (joinP (p :: args.filter strTruthy))

/-- `PathBase.join` on a relative instance. -/
def relJoin (p : Str) (args : List Str) : Str :=
  cloneRel (joinP (p :: args.filter strTruthy))

/-- `AbsolutePath.resolve`. -/
def absResolve (p : Str) (args : List Str) : Str :=
  cloneAbs (resolveP (p :: args.filter strTruthy))

/-- `PathBase.parent` on an absolute instance. -/
def absParent (p : Str) : Str := cloneAbs (dirname p)

/-- `PathBase.parent` on a relative instance. -/
def relParent (p : Str) : Str := cloneRel (dirname p)

/-- `PathBase.replaceParent` on an absolute instance. -/
def absReplaceParent (p np : Str) : Str := cloneAbs (joinP [np, basename p])

/-- `PathBase.replaceParent` on a relative instance. -/
def relReplaceParent (p np : Str) : Str := cloneRel (joinP [np, basename p])

/-- `PathBase.replaceFilename` (`cloneWithFilename` = `parent.join(filename)`)
on an absolute instance. -/
def absReplaceFilename (p f : Str) : Str := absJoin (absParent p) [f]

/-- `PathBase.replaceFilename` on a relative instance. -/
def relReplaceFilename (p f : Str) : Str := relJoin (relParent p) [f]

/-- `PathBase.equals` on an absolute instance. -/
def equalsAbs (p other : Str) : Bool := p == cloneAbs other

/-- `AbsolutePath.relativeTo`: build a `RelativePath` from `relative(base, this)`. -/
def relativeToAbs (self base : Str) : Option Str :=
  relativePathNew (relative base self)

/-- Specification-side description of the `resolve` discard rule: the
suffix of the argument list starting at its last absolute element (the
whole list when no element is absolute). -/
def lastAbsSuffix (l : List Str) : List Str :=
  match l.reverse.dropWhile (fun s => !(isAbsolute s)) with
  | [] => l
  | a :: _ => a :: (l.reverse.takeWhile (fun s => !(isAbsolute s))).reverse

/-- `descendsFrom`-style segment getter of `PathBase`:
`path_.split(sep).filter(Boolean)`. -/
def segmentsOf (p : Str) : List Str := (splitOnChar sep p).filter strTruthy

/-- The normalized segment sequence of a path string, as computed by the
`normalizeSegments` loop. -/
def seqOf (p : Str) : List Str := normalizeSegmentsList (splitOnChar sep p)

end TPath

namespace TUrl

open TPath (sep)

/-- JavaScript exceptions: an `Error` carrying a message, or the
`URIError` thrown by `decodeURIComponent`. -/
inductive JsErr where
  | error (msg : Str)
  | uriError
deriving DecidableEq, Repr

/-- Result of a JavaScript computation that may throw. -/
abbrev JsRes (α : Type) := Except JsErr α

deriving instance DecidableEq for Except

/-- The apostrophe character (unreserved in URI encodings). -/
def apos : Char := Char.ofNat 39

/-- Value of a hex digit (both cases), `none` for a non-hex character. -/
def hexVal (c : Char) : Option Nat :=
  if '0' ≤ c ∧ c ≤ '9' then some (c.toNat - '0'.toNat)
  else if 'a' ≤ c ∧ c ≤ 'f' then some (c.toNat - 'a'.toNat + 10)
  else if 'A' ≤ c ∧ c ≤ 'F' then some (c.toNat - 'A'.toNat + 10)
  else none

/-- The character class `[0-9a-f]` with the `i` flag, as in the
`unDoubleEncode` regex. -/
def isHexDigit (c : Char) : Bool := (hexVal c).isSome

/-- Uppercase hex digit for `n < 16` (percent-escapes are emitted in
uppercase by the ECMAScript encoders). -/
def hexDigitU (n : Nat) : Char :=
  if n < 10 then Char.ofNat ('0'.toNat + n) else Char.ofNat ('A'.toNat + n - 10)

/-- A percent-escape `%XY` for one byte. -/
def byteHex (b : Nat) : Str := ['%', hexDigitU (b / 16), hexDigitU (b % 16)]

/-- UTF-8 encoding of one character (a `Char` is always a Unicode scalar
value, which models a well-formed ECMAScript string). -/
def utf8Bytes (c : Char) : List Nat :=
  let n := c.toNat
  if n < 0x80 then [n]
  else if n < 0x800 then [0xC0 + n / 0x40, 0x80 + n % 0x40]
  else if n < 0x10000 then
    [0xE0 + n / 0x1000, 0x80 + (n / 0x40) % 0x40, 0x80 + n % 0x40]
  else
    [0xF0 + n / 0x40000, 0x80 + (n / 0x1000) % 0x40, 0x80 + (n / 0x40) % 0x40,
      0x80 + n % 0x40]

/-- Scan a string into literal characters and percent-escape bytes;
`none` models the `URIError` on a malformed `%` sequence. -/
def pctTokens : Str → Option (List (Sum Char Nat))
  | [] => some []
  | '%' :: h1 :: h2 :: rest =>
    match hexVal h1, hexVal h2 with
    | some v1, some v2 => (pctTokens rest).map (fun ts => Sum.inr (v1 * 16 + v2) :: ts)
    | _, _ => none
  | '%' :: _ => none
  | c :: rest => (pctTokens rest).map (fun ts => Sum.inl c :: ts)

/-- Decode a token list as the ECMAScript URI decoding algorithm does:
literal characters pass through; an escape byte below `0x80` is a code
point; a UTF-8 lead byte must be followed by exactly its continuation
bytes, all coming from escapes, and overlong forms, surrogates and
out-of-range code points are rejected (`none` models the `URIError`). -/
def decodeTokens : List (Sum Char Nat) → Option Str
  | [] => some []
  | Sum.inl c :: rest => (decodeTokens rest).map (fun cs => c :: cs)
  | Sum.inr b :: rest =>
    if b < 0x80 then (decodeTokens rest).map (fun cs => Char.ofNat b :: cs)
    else if 0xC2 ≤ b ∧ b ≤ 0xDF then
      match rest with
      | Sum.inr b2 :: rest2 =>
        if 0x80 ≤ b2 ∧ b2 ≤ 0xBF then
          (decodeTokens rest2).map (fun cs =>
            Char.ofNat ((b - 0xC0) * 0x40 + (b2 - 0x80)) :: cs)
        else none
      | _ => none
    else if 0xE0 ≤ b ∧ b ≤ 0xEF then
      match rest with
      | Sum.inr b2 :: Sum.inr b3 :: rest2 =>
        let n := (b - 0xE0) * 0x1000 + (b2 - 0x80) * 0x40 + (b3 - 0x80)
        if (0x80 ≤ b2 ∧ b2 ≤ 0xBF) ∧ (0x80 ≤ b3 ∧ b3 ≤ 0xBF) ∧
            0x800 ≤ n ∧ (n < 0xD800 ∨ 0xDFFF < n) then
          (decodeTokens rest2).map (fun cs => Char.ofNat n :: cs)
        else none
      | _ => none
    else if 0xF0 ≤ b ∧ b ≤ 0xF4 then
      match rest with
      | Sum.inr b2 :: Sum.inr b3 :: Sum.inr b4 :: rest2 =>
        let n := (b - 0xF0) * 0x40000 + (b2 - 0x80) * 0x1000 +
          (b3 - 0x80) * 0x40 + (b4 - 0x80)
        if (0x80 ≤ b2 ∧ b2 ≤ 0xBF) ∧ (0x80 ≤ b3 ∧ b3 ≤ 0xBF) ∧
            (0x80 ≤ b4 ∧ b4 ≤ 0xBF) ∧ 0x10000 ≤ n ∧ n ≤ 0x10FFFF then
          (decodeTokens rest2).map (fun cs => Char.ofNat n :: cs)
        else none
      | _ => none
    else none

/-- ECMAScript `decodeURIComponent`. -/
def decodeURIComponent (s : Str) : JsRes Str :=
  match pctTokens s with
  | none => Except.error JsErr.uriError
  | some toks =>
    match decodeTokens toks with
    | none => Except.error JsErr.uriError
    | some r => Except.ok r

/-- The characters `encodeURIComponent` leaves unescaped:
alphanumerics and `- _ . ! ~ * ' ( )`. -/
def componentUnescaped (c : Char) : Bool :=
  ('A' ≤ c && c ≤ 'Z') || ('a' ≤ c && c ≤ 'z') || ('0' ≤ c && c ≤ '9') ||
  c = '-' || c = '_' || c = '.' || c = '!' || c = '~' || c = '*' || c = apos ||
  c = '(' || c = ')'

/-- The additional characters `encodeURI` leaves unescaped:
`; / ? : @ & = + $ , #`. -/
def uriExtraUnescaped (c : Char) : Bool :=
  c = ';' || c = '/' || c = '?' || c = ':' || c = '@' || c = '&' || c = '=' ||
  c = '+' || c = '$' || c = ',' || c = '#'

/-- Percent-escape the UTF-8 bytes of one character. -/
def pctEncodeChar (c : Char) : Str :=
  ((utf8Bytes c).map byteHex).foldr (· ++ ·) []

/-- ECMAScript `encodeURIComponent`. -/
def encodeURIComponent (s : Str) : Str :=
  (s.map (fun c => if componentUnescaped c then [c] else pctEncodeChar c)).foldr
    (· ++ ·) []

/-- ECMAScript `encodeURI`. -/
def encodeURIStr (s : Str) : Str :=
  (s.map (fun c =>
    if componentUnescaped c || uriExtraUnescaped c then [c] else pctEncodeChar c)).foldr
    (· ++ ·) []

/-- The regex replace `s.replace(/%25([0-9a-f]{2})/gi, '%$1')` of
`unDoubleEncode` from url-tools. -/
def unDoubleEncode : Str → Str
  | '%' :: '2' :: '5' :: h1 :: h2 :: rest2 =>
    if isHexDigit h1 && isHexDigit h2
    then '%' :: h1 :: h2 :: unDoubleEncode rest2
    else '%' :: unDoubleEncode ('2' :: '5' :: h1 :: h2 :: rest2)
  | c :: rest => c :: unDoubleEncode rest
  | [] => []

/-- `encodeComponent` from url-tools. -/
def encodeComponent (s : Str) : Str := unDoubleEncode (encodeURIComponent s)

/-- The `.replace(/[?#]/g, encodeURIComponent)` step of `encodePathname`. -/
def replaceQueryHash (s : Str) : Str :=
  (s.map (fun c =>
    if c = '?' || c = '#' then encodeURIComponent [c] else [c])).foldr (· ++ ·) []

/-- `encodePathname` from url-tools. -/
def encodePathname (s : Str) : Str :=
  unDoubleEncode (replaceQueryHash (encodeURIStr s))

/-- A query value: a single string or an array of strings. -/
inductive QVal where
  | one (v : Str)
  | many (vs : List Str)
deriving DecidableEq, Repr

/-- A `UrlQueryParams` record: a JavaScript object with string keys,
modelled as an insertion-ordered association list (faithful to JS object
key order for non-integer-like keys; assignment to an existing key keeps
its position). -/
abbrev Query := List (Str × QVal)

/-- Object member lookup `result[key]`. -/
def qlookup (k : Str) : Query → Option QVal
  | [] => none
  | (k2, v) :: rest => if k2 = k then some v else qlookup k rest

/-- Object member assignment `result[key] = v`: updates in place, or
appends a new key at the end. -/
def qset (k : Str) (v : QVal) : Query → Query
  | [] => [(k, v)]
  | (k2, v2) :: rest => if k2 = k then (k, v) :: rest else (k2, v2) :: qset k v rest

/-- JS truthiness of a query value (`''` is falsy; an array is always
truthy). -/
def qvalTruthy : QVal → Bool
  | QVal.one v => !v.isEmpty
  | QVal.many _ => true

/-- One iteration of the `parseQuery` loop from url-tools. -/
def parseQueryPair (acc : Query) (pair : Str) : JsRes Query :=
  if pair = [] then Except.ok acc
  else do
    let parts := TPath.splitOnChar '=' pair
    let k ← decodeURIComponent (parts.headD [])
    let v ← decodeURIComponent ((parts.drop 1).headD [])
    Except.ok (match qlookup k acc with
      | some prev =>
        if qvalTruthy prev then
          qset k (match prev with
            | QVal.one p => QVal.many [p, v]
            | QVal.many l => QVal.many (l ++ [v])) acc
        else qset k (QVal.one v) acc
      | none => qset k (QVal.one v) acc)

/-- `parseQuery` from url-tools. -/
def parseQuery (q : Str) : JsRes Query :=
  let str := if q.take 1 = ['?'] then q.drop 1 else q
  (TPath.splitOnChar '&' str).foldlM parseQueryPair []

/-- `UrlPathParts`: pathname plus optional query and fragment
(`undefined` is `none`). -/
structure UrlParts where
  pathname : Str
  query : Option Query
  fragment : Option Str
deriving DecidableEq, Repr

/-- `normalizePathname` from url-tools (current version): plain-path
normalization with the trailing slash preserved as a directory marker. -/
def normalizePathname (path : Str) : Str :=
  let trailingSlash := path.getLast? = some sep ∧ path ≠ [sep]
  let pathNormalized := TPath.normalize path
  if pathNormalized = [] then ['.']
  else pathNormalized ++ (if trailingSlash then [sep] else [])

/-- The raw decoration split of `parsePath` from url-tools (current
version, lines 22-36): everything before and including the last `'/'` is
pathname; the remainder is split at its first `'#'` for the fragment,
then at its first `'?'` for the query substring. -/
def splitDecorations (s : Str) : Str × Option Str × Option Str :=
  let si := match TPath.lastIdxOf? sep s with | some i => i + 1 | none => 0
  let pre := s.take si
  let r0 := s.drop si
  let p1 : Str × Option Str := match TPath.idxOf? '#' r0 with
    | some h => (r0.take h, some (r0.drop (h + 1)))
    | none => (r0, none)
  let p2 : Str × Option Str := match TPath.idxOf? '?' p1.1 with
    | some q => (p1.1.take q, some (p1.1.drop (q + 1)))
    | none => (p1.1, none)
  (pre ++ p2.1, p2.2, p1.2)

/-- `parsePath` from url-tools (current version): the decoration split,
query parsing (query absent when there is no `'?'`), pathname
normalization; the fragment is kept raw. -/
def parsePath (s : Str) : JsRes UrlParts := do
  let d := splitDecorations s
  let q ← match d.2.1 with
    | none => pure Option.none
    | some t => (parseQuery t).map some
  pure ⟨normalizePathname d.1, q, d.2.2⟩

/-- Expansion of one query entry into key/value pairs (an array value
expands to repeated pairs in array order). -/
def qvalExpand (k : Str) : QVal → List (Str × Str)
  | QVal.one v => [(k, v)]
  | QVal.many vs => vs.map (fun x => (k, x))

/-- `queryToString` from url-tools (current version): returns `''` for an
absent query, otherwise `'?'` plus `key=value` pairs joined with `'&'`,
in the object's insertion order. -/
def queryToString (q : Option Query) : Str :=
  match q with
  | none => []
  | some entries =>
    let pairs := (entries.map (fun e => qvalExpand e.1 e.2)).foldr (· ++ ·) []
    '?' :: TPath.joinChar '&'
      (pairs.map (fun e => encodeComponent e.1 ++ '=' :: encodeComponent e.2))

/-- `fragmentToString` from url-tools. -/
def fragmentToString : Option Str → Str
  | none => []
  | some f => '#' :: encodeComponent f

/-- `partsToString` from url-tools. -/
def partsToString (p : UrlParts) : Str :=
  encodePathname p.pathname ++ queryToString p.query ++ fragmentToString p.fragment

/-- JavaScript object spread `{ ...a, ...b }` over query maps. -/
def spreadMerge (a b : Query) : Query :=
  b.foldl (fun acc e => qset e.1 e.2 acc) a

/-- One iteration of the url-tools `joinOrResolve` loop in `join` mode
(skip falsy segments, parse, append pathname, spread-merge a present
query, replace the fragment when truthy). -/
def joinSegLoop (st : UrlParts) (str : Str) : JsRes UrlParts :=
  if str = [] then Except.ok st
  else do
    let rel ← parsePath str
    Except.ok ⟨st.pathname ++ sep :: rel.pathname,
      (match rel.query with
        | some rq => some (spreadMerge (st.query.getD []) rq)
        | none => st.query),
      (match rel.fragment with
        | some f => if f ≠ [] then some f else st.fragment
        | none => st.fragment)⟩

/-- `join` from url-tools (the `joinOrResolve` loop in `join` mode plus
the final pathname normalization). -/
def urtJoin (cur : UrlParts) (segs : List Str) : JsRes UrlParts := do
  let st ← segs.foldlM joinSegLoop cur
  Except.ok ⟨normalizePathname st.pathname, st.query, st.fragment⟩

/-- Which concrete `UrlBase` subclass an instance belongs to. -/
inductive UrlKind where
  | root
  | rel
deriving DecidableEq, Repr

/-- A `RootPathUrl` or `RelativePathUrl` instance: its class and its
stored parts. -/
structure Url where
  kind : UrlKind
  parts : UrlParts
deriving DecidableEq, Repr

/-- The subclass constructor checks (`RootPathUrl must start with '/'`,
`RelativePathUrl must not start with '/'`) followed by the `UrlBase`
constructor, which stores the parts unchanged. -/
def ctorCheck (k : UrlKind) (parts : UrlParts) : JsRes Url :=
  match k with
  | UrlKind.root =>
    if TPath.isAbsolute parts.pathname then Except.ok ⟨UrlKind.root, parts⟩
    else Except.error (JsErr.error
      (strL "RootPathUrl must start with '/': " ++ parts.pathname))
  | UrlKind.rel =>
    if TPath.isAbsolute parts.pathname then
      Except.error (JsErr.error
        (strL "RelativePathUrl must not start with '/': " ++ parts.pathname))
    else Except.ok ⟨UrlKind.rel, parts⟩

/-- The `RootPathUrl` constructor on a string argument. -/
def mkRootPathUrl (s : Str) : JsRes Url := do
  let parts ← parsePath s
  ctorCheck UrlKind.root parts

/-- The `RelativePathUrl` constructor on a string argument. -/
def mkRelativePathUrl (s : Str) : JsRes Url := do
  let parts ← parsePath s
  ctorCheck UrlKind.rel parts

/-- The `pathname` getter. -/
def pathnameU (u : Url) : Str := u.parts.pathname

/-- The `query` getter (`this.#query && { ...this.#query }`): `undefined`
stays `undefined`, a present query is returned as a copy. -/
def queryU (u : Url) : Option Query := u.parts.query

/-- The `fragment` getter. -/
def fragmentU (u : Url) : Option Str := u.parts.fragment

/-- The `isDirectory` getter: pathname ends with `'/'`, or is exactly
`'/'` or `'.'`. -/
def isDirectoryU (u : Url) : Bool :=
  u.parts.pathname.getLast? = some sep || u.parts.pathname = [sep] ||
    u.parts.pathname = ['.']

/-- The private `#filenameStr`: `undefined` on a directory path, else the
basename of the pathname. -/
def filenameStrU (u : Url) : Option Str :=
  if isDirectoryU u then none else some (TPath.basename u.parts.pathname)

/-- The `Filename` constructor: rejects strings containing a separator. -/
def mkFilename (f : Str) : JsRes Str :=
  if f = TPath.basename f then Except.ok f
  else Except.error (JsErr.error
    (strL "Filename must not contain path components: " ++ f))

/-- `Filename.extension` (`extname`). -/
def fnExtension (f : Str) : Str := TPath.extname f

/-- `Filename.stem` (`basename(filename, extension)`). -/
def fnStem (f : Str) : Str := TPath.basenameExt f (TPath.extname f)

/-- `Filename.replaceStem`. -/
def fnReplaceStem (f ns : Str) : JsRes Str := mkFilename (ns ++ fnExtension f)

/-- `Filename.replaceExtension` (normalizes the new extension to exactly
one leading dot). -/
def fnReplaceExtension (f ne : Str) : JsRes Str :=
  let ext := if ne.take 1 = ['.'] then ne else '.' :: ne
  mkFilename (fnStem f ++ ext)

/-- The `filename` getter of `UrlBase`: `undefined` when `#filenameStr`
is falsy, else a `Filename` built from it. -/
def filenameU (u : Url) : JsRes (Option Str) :=
  match filenameStrU u with
  | some s => if s = [] then Except.ok none else (mkFilename s).map some
  | none => Except.ok none

/-- The `stem` getter of `UrlBase` (`this.filename?.stem`). -/
def stemU (u : Url) : JsRes (Option Str) := (filenameU u).map (·.map fnStem)

/-- The `extension` getter of `UrlBase` (`this.filename?.extension`). -/
def extensionU (u : Url) : JsRes (Option Str) :=
  (filenameU u).map (·.map fnExtension)

/-- `UrlBase.toString` (`partsToString`). -/
def toStringU (u : Url) : Str := partsToString u.parts

/-- `UrlBase.equals` with a string argument:
`this.toString() === String(other)`. -/
def equalsU (u : Url) (other : Str) : Bool := toStringU u == other

/-- The message of the `#requireFilename` error. -/
def requireMsg (what : Str) (u : Url) : Str :=
  strL "Can't " ++ what ++ strL ", " ++
    strL "directory path has no filename: " ++ toStringU u

/-- `UrlBase.#requireFilename`: the filename, or a thrown error whose
message names the operation and the directory path. -/
def requireFilenameU (what : Str) (u : Url) : JsRes Str :=
  (filenameU u).bind (fun of => match of with
    | some f => Except.ok f
    | none => Except.error (JsErr.error (requireMsg what u)))

/-- `UrlBase.nextParts` followed by the subclass constructor
(`cloneWithParts`): a given pathname is conformed to the instance's
absoluteness, missing parts default to the current ones. -/
def cloneWithAllParts (u : Url) (parts : UrlParts) : JsRes Url :=
  ctorCheck u.kind
    ⟨TPath.conformAbsolute parts.pathname (TPath.isAbsolute u.parts.pathname),
     (match parts.query with | some q => some q | none => u.parts.query),
     (match parts.fragment with | some f => some f | none => u.parts.fragment)⟩

/-- `cloneWithPathname`: only the pathname is replaced. -/
def cloneWithPathnameU (u : Url) (pathname : Str) : JsRes Url :=
  cloneWithAllParts u ⟨pathname, none, none⟩

/-- The `parent` getter (`cloneWithPathname (dirname pathname)`). -/
def parentU (u : Url) : JsRes Url :=
  cloneWithPathnameU u (TPath.dirname u.parts.pathname)

/-- `UrlBase.join` on stringified segments. -/
def joinU (u : Url) (segs : List Str) : JsRes Url := do
  let parts ← urtJoin u.parts (segs.filter TPath.strTruthy)
  cloneWithAllParts u parts

/-- `cloneWithFilename` (`this.parent.join(filename)`). -/
def cloneWithFilenameU (u : Url) (f : Str) : JsRes Url := do
  let p ← parentU u
  joinU p [f]

/-- `UrlBase.replaceExtension`. -/
def replaceExtensionU (u : Url) (ne : Str) : JsRes Url := do
  let f ← requireFilenameU (strL "replaceExtension") u
  let f2 ← fnReplaceExtension f ne
  cloneWithFilenameU u f2

/-- `UrlBase.replaceFilename`. -/
def replaceFilenameU (u : Url) (nf : Str) : JsRes Url := do
  let _ ← requireFilenameU (strL "replaceFilename") u
  cloneWithFilenameU u nf

/-- `UrlBase.replaceStem`. -/
def replaceStemU (u : Url) (ns : Str) : JsRes Url := do
  let f ← requireFilenameU (strL "replaceStem") u
  let f2 ← fnReplaceStem f ns
  cloneWithFilenameU u f2

/-- `UrlBase.transformFilename`. -/
def transformFilenameU (u : Url) (fn : Str → Str) : JsRes Url := do
  let f ← requireFilenameU (strL "transformFilename") u
  cloneWithFilenameU u (fn f)

/-- Split a string at the first occurrence of a character, by scanning:
the part before, and (when found) the part after. -/
def breakAtChar (c : Char) (s : Str) : Str × Option Str :=
  (s.takeWhile (fun a => a != c),
   match s.dropWhile (fun a => a != c) with
   | [] => none
   | _ :: rest => some rest)

/-- Specification-side (amended) description of the decoration split of
`parsePath`: only the substring after the last `'/'` is scanned; it is
split at its first `'#'` for the fragment, then at its first `'?'` for
the query substring; everything up to and including the last `'/'`
belongs to the pathname. -/
def specSplitDecorations (s : Str) : Str × Option Str × Option Str :=
  let rem := (s.reverse.takeWhile (fun a => a != sep)).reverse
  let pre := (s.reverse.dropWhile (fun a => a != sep)).reverse
  let f := breakAtChar '#' rem
  let q := breakAtChar '?' f.1
  (pre ++ q.1, q.2, f.2)

/-- The claim's description of the decoration split: the fragment comes
from splitting the whole string at the last `'#'` that occurs at or
after the last `'?'`, the query substring from splitting the remainder
at its last `'?'`. -/
def claimSplitDecorations (s : Str) : Str × Option Str × Option Str :=
  let hi := TPath.lastIdxOf? '#' s
  let qi := TPath.lastIdxOf? '?' s
  let p1 : Str × Option Str :=
    match hi with
    | some h =>
      if (match qi with | some q => decide (q ≤ h) | none => true) = true then
        (s.take h, some (s.drop (h + 1)))
      else (s, none)
    | none => (s, none)
  let p2 : Str × Option Str :=
    match TPath.lastIdxOf? '?' p1.1 with
    | some q => (p1.1.take q, some (p1.1.drop (q + 1)))
    | none => (p1.1, none)
  (p2.1, p2.2, p1.2)

/-- The result is a thrown `Error` whose message contains `"directory"`. -/
def IsDirErr (r : JsRes Url) : Prop :=
  ∃ m, r = Except.error (JsErr.error m) ∧ (strL "directory") <:+: m

/-- A string of characters that the component encoder leaves unchanged. -/
def plainStr (s : Str) : Prop := ∀ c ∈ s, componentUnescaped c = true

/-- Round-trip well-formedness of one query value: a scalar of safe
characters, or an array of at least two safe values whose first is
nonempty (JS truthiness promotes a scalar to an array only then). -/
def qvalOk : QVal → Prop
  | QVal.one v => plainStr v
  | QVal.many vs => 2 ≤ vs.length ∧ vs.headD [] ≠ [] ∧ ∀ v ∈ vs, plainStr v

/-- Round-trip well-formedness of a query map: pairwise-distinct safe
keys with well-formed values. -/
def queryOk (q : Query) : Prop :=
  q.Pairwise (fun a b => a.1 ≠ b.1) ∧ ∀ e ∈ q, plainStr e.1 ∧ qvalOk e.2

/-- The raw `key=value` strings of one query entry (an array expands to
one string per element, in array order). -/
def pairStrs (k : Str) : QVal → List Str
  | QVal.one v => [k ++ '=' :: v]
  | QVal.many vs => vs.map (fun v => k ++ '=' :: v)

/-- The raw query string (without the leading `'?'`) of a query map. -/
def rawQueryStr (q : Query) : Str :=
  TPath.joinChar '&' ((q.map (fun e => pairStrs e.1 e.2)).foldr (· ++ ·) [])

/-- Characters the pathname encoder leaves unchanged. -/
def pathPlain (c : Char) : Bool :=
  componentUnescaped c || (uriExtraUnescaped c && !(c = '?' || c = '#'))

/-- Round-trip well-formedness of a pathname: safe characters and a
`normalizePathname` fixed point. -/
def pathOk (p : Str) : Prop :=
  (∀ c ∈ p, pathPlain c = true) ∧ normalizePathname p = p

/-- Round-trip well-formedness of URL parts. -/
def partsOk (p : UrlParts) : Prop :=
  pathOk p.pathname ∧
  (match p.query with | some q => queryOk q | none => True) ∧
  (match p.fragment with | some f => plainStr f | none => True)

/-- The cut position of `splitDecorations`: one past the last `'/'`. -/
def siOf (s : Str) : Nat :=
  match TPath.lastIdxOf? sep s with | some i => i + 1 | none => 0

/-- The query/fragment stage of `splitDecorations`, applied to the
substring after the last `'/'`. -/
def decorStage (r0 : Str) : Str × Option Str × Option Str :=
  let p1 : Str × Option Str := match TPath.idxOf? '#' r0 with
    | some h => (r0.take h, some (r0.drop (h + 1)))
    | none => (r0, none)
  let p2 : Str × Option Str := match TPath.idxOf? '?' p1.1 with
    | some q => (p1.1.take q, some (p1.1.drop (q + 1)))
    | none => (p1.1, none)
  (p2.1, p2.2, p1.2)

/-- The raw query/fragment decoration suffix of a URL string. -/
def decorOf (qo fo : Option Str) : Str :=
  (match qo with | some t => '?' :: t | none => []) ++
    (match fo with | some t => '#' :: t | none => [])

/-- An already-percent-encoded string over a class of kept characters:
a sequence of kept non-`'%'` characters and `%XY` escapes whose hex
digits are themselves kept. -/
inductive EncOk (keep : Char → Bool) : Str → Prop where
  | nil : EncOk keep []
  | esc {h1 h2 : Char} {rest : Str} : isHexDigit h1 = true →
      isHexDigit h2 = true → keep h1 = true → keep h2 = true →
      EncOk keep rest → EncOk keep ('%' :: h1 :: h2 :: rest)
  | chr {c : Char} {rest : Str} : keep c = true → c ≠ '%' →
      EncOk keep rest → EncOk keep (c :: rest)

end TUrl

namespace TPath

/-! ### Lemmas about `splitOnChar` and `joinChar` -/

theorem splitOnChar_ne_nil (c : Char) (s : Str) : splitOnChar c s ≠ [] := by
  cases s with
  | nil => simp [splitOnChar]
  | cons a rest =>
    simp only [splitOnChar]
    rcases splitOnChar c rest with _ | ⟨t, ts⟩ <;> by_cases h : a = c <;> simp [h]

theorem mem_splitOnChar_not_mem {c : Char} {s : Str} :
    ∀ t ∈ splitOnChar c s, c ∉ t := by
  induction s with
  | nil => intro t ht; simp [splitOnChar] at ht; simp [ht]
  | cons a rest ih =>
    intro t ht
    simp only [splitOnChar] at ht
    rcases hsp : splitOnChar c rest with _ | ⟨u, us⟩
    · exact absurd hsp (splitOnChar_ne_nil c rest)
    · rw [hsp] at ht
      by_cases hac : a = c
      · simp [hac] at ht
        rcases ht with h | h | h
        · simp [h]
        · exact h ▸ ih u (hsp ▸ List.mem_cons_self u us)
        · exact ih t (hsp ▸ List.mem_cons_of_mem u h)
      · simp [hac] at ht
        rcases ht with h | h
        · subst h
          intro hmem
          rcases List.mem_cons.mp hmem with h' | h'
          · exact hac h'.symm
          · exact ih u (hsp ▸ List.mem_cons_self u us) h'
        · exact ih t (hsp ▸ List.mem_cons_of_mem u h)

theorem splitOnChar_cons_self (c : Char) (t : Str) :
    splitOnChar c (c :: t) = [] :: splitOnChar c t := by
  simp only [splitOnChar]
  rcases hsp : splitOnChar c t with _ | ⟨u, us⟩
  · exact absurd hsp (splitOnChar_ne_nil c t)
  · simp

theorem splitOnChar_single {c : Char} {s : Str} (h : c ∉ s) :
    splitOnChar c s = [s] := by
  induction s with
  | nil => simp [splitOnChar]
  | cons a rest ih =>
    have hac : a ≠ c := fun he => h (he ▸ List.mem_cons_self a rest)
    have hr : c ∉ rest := fun hm => h (List.mem_cons_of_mem a hm)
    simp only [splitOnChar, ih hr]
    simp [fun he => hac he]

theorem splitOnChar_append_cons {c : Char} {s : Str} (u : Str) (h : c ∉ s) :
    splitOnChar c (s ++ c :: u) = s :: splitOnChar c u := by
  induction s with
  | nil => simpa using splitOnChar_cons_self c u
  | cons a rest ih =>
    have hac : a ≠ c := fun he => h (he ▸ List.mem_cons_self a rest)
    have hr : c ∉ rest := fun hm => h (List.mem_cons_of_mem a hm)
    show splitOnChar c (a :: (rest ++ c :: u)) = (a :: rest) :: splitOnChar c u
    simp only [splitOnChar]
    rw [ih hr]
    simp [fun he => hac he]

theorem joinChar_cons (c : Char) (s : Str) {rest : List Str} (h : rest ≠ []) :
    joinChar c (s :: rest) = s ++ c :: joinChar c rest := by
  cases rest with
  | nil => exact absurd rfl h
  | cons t ts => rfl

theorem splitOnChar_joinChar {c : Char} {L : List Str}
    (hL : L ≠ []) (hns : ∀ t ∈ L, c ∉ t) :
    splitOnChar c (joinChar c L) = L := by
  induction L with
  | nil => exact absurd rfl hL
  | cons s rest ih =>
    cases rest with
    | nil => exact splitOnChar_single (hns s (List.mem_cons_self s []))
    | cons t ts =>
      rw [joinChar_cons c s (by simp),
        splitOnChar_append_cons _ (hns s (List.mem_cons_self s (t :: ts)))]
      rw [ih (by simp) (fun u hu => hns u (List.mem_cons_of_mem s hu))]

theorem joinChar_ne_nil {c : Char} {L : List Str} (hL : L ≠ [])
    (hnn : ∀ t ∈ L, t ≠ []) : joinChar c L ≠ [] := by
  cases L with
  | nil => exact absurd rfl hL
  | cons s rest =>
    cases rest with
    | nil => exact hnn s (List.mem_cons_self s [])
    | cons t ts =>
      rw [joinChar_cons c s (by simp)]
      intro hcontra
      rcases List.append_eq_nil.mp hcontra with ⟨_, h2⟩
      exact List.cons_ne_nil _ _ h2

theorem head?_append_left {α : Type} {l : List α} (l' : List α) (h : l ≠ []) :
    (l ++ l').head? = l.head? := by
  cases l with
  | nil => exact absurd rfl h
  | cons a t => rfl

theorem joinChar_head {c : Char} {s : Str} {rest : List Str} (h : s ≠ []) :
    (joinChar c (s :: rest)).head? = s.head? := by
  cases rest with
  | nil => rfl
  | cons t ts => rw [joinChar_cons c s (by simp), head?_append_left _ h]

theorem getLast?_not_mem {c : Char} {s : Str} (h : c ∉ s) :
    s.getLast? ≠ some c := by
  intro he
  rcases List.mem_getLast?_eq_getLast (l := s) (x := c) he with ⟨hne, heq⟩
  exact h (heq ▸ List.getLast_mem hne)

theorem joinChar_getLast {c : Char} {L : List Str} (hL : L ≠ [])
    (hnn : ∀ t ∈ L, t ≠ []) (hns : ∀ t ∈ L, c ∉ t) :
    (joinChar c L).getLast? ≠ some c := by
  induction L with
  | nil => exact absurd rfl hL
  | cons s rest ih =>
    cases rest with
    | nil => exact getLast?_not_mem (hns s (List.mem_cons_self s []))
    | cons t ts =>
      rw [joinChar_cons c s (by simp), List.getLast?_append_cons,
        ← List.getLast?_cons_cons (a := c)]
      have hjoin : joinChar c (t :: ts) ≠ [] :=
        joinChar_ne_nil (by simp) (fun u hu => hnn u (List.mem_cons_of_mem s hu))
      cases hj : joinChar c (t :: ts) with
      | nil => exact absurd hj hjoin
      | cons x xs =>
        rw [List.getLast?_cons_cons]
        have := ih (by simp) (fun u hu => hnn u (List.mem_cons_of_mem s hu))
          (fun u hu => hns u (List.mem_cons_of_mem s hu))
        rw [hj] at this
        exact this

/-! ### The `normalizeSegments` invariant -/

/-- A clean segment: nonempty and not `'.'`. -/
def CleanSeg (s : Str) : Prop := s ≠ [] ∧ s ≠ ['.']

/-- A normalized segment list: a leading run of `'..'` segments followed by
clean segments none of which is `'..'`. -/
def NormList (L : List Str) : Prop :=
  ∃ k R, L = List.replicate k dd ++ R ∧ ∀ s ∈ R, CleanSeg s ∧ s ≠ dd

theorem normStep_skip {seg : Str} (acc : List Str) (h : seg = [] ∨ seg = ['.']) :
    normStep acc seg = acc := by
  simp [normStep, h]

theorem normStep_push {seg : Str} (acc : List Str)
    (h1 : seg ≠ []) (h2 : seg ≠ ['.']) (h3 : seg ≠ dd) :
    normStep acc seg = acc ++ [seg] := by
  simp [normStep, h1, h2, h3]

theorem normStep_dd_pop {acc : List Str} (h1 : acc ≠ [])
    (h2 : acc.getLast? ≠ some dd) : normStep acc dd = acc.dropLast := by
  have : ¬(dd = [] ∨ dd = ['.']) := by decide
  simp [normStep, this, h1, h2]

theorem normStep_dd_push {acc : List Str}
    (h : acc = [] ∨ acc.getLast? = some dd) : normStep acc dd = acc ++ [dd] := by
  have hne : ¬(dd = [] ∨ dd = ['.']) := by decide
  rcases h with h | h <;> simp [normStep, hne, h]

theorem foldl_normStep_push {M : List Str}
    (h : ∀ s ∈ M, s ≠ [] ∧ s ≠ ['.'] ∧ s ≠ dd) :
    ∀ acc, M.foldl normStep acc = acc ++ M := by
  induction M with
  | nil => intro acc; simp
  | cons x xs ih =>
    intro acc
    rcases h x (List.mem_cons_self x xs) with ⟨h1, h2, h3⟩
    rw [List.foldl_cons, normStep_push acc h1 h2 h3,
      ih (fun s hs => h s (List.mem_cons_of_mem x hs))]
    simp

theorem foldl_normStep_ddrun (k : Nat) :
    ∀ j, (List.replicate k dd).foldl normStep (List.replicate j dd)
      = List.replicate (j + k) dd := by
  induction k with
  | zero => intro j; simp
  | succ n ih =>
    intro j
    rw [List.replicate_succ, List.foldl_cons]
    have hstep : normStep (List.replicate j dd) dd = List.replicate (j + 1) dd := by
      cases j with
      | zero =>
        rw [normStep_dd_push (Or.inl (by simp))]
        simp
      | succ m =>
        rw [normStep_dd_push]
        · simp [List.replicate_succ' (m + 1)]
        · right
          rw [List.replicate_succ' m, List.getLast?_concat]
    rw [hstep, ih (j + 1)]
    congr 1
    omega

theorem getLast?_ne_of_not_mem {α : Type} {L : List α} {x : α} (h : x ∉ L) :
    L.getLast? ≠ some x := by
  intro he
  rcases List.mem_getLast?_eq_getLast (l := L) he with ⟨hne, heq⟩
  exact h (heq ▸ List.getLast_mem hne)

theorem foldl_normStep_pops {k : Nat} :
    ∀ B : List Str, k ≤ B.length → (∀ s ∈ B, s ≠ dd) →
      (List.replicate k dd).foldl normStep B = B.take (B.length - k) := by
  induction k with
  | zero => intro B _ _; simp
  | succ n ih =>
    intro B hk hdd
    have hBne : B ≠ [] := by
      intro h; subst h; simp at hk
    rw [List.replicate_succ, List.foldl_cons,
      normStep_dd_pop hBne (getLast?_ne_of_not_mem (fun hm => hdd dd hm rfl))]
    rw [ih B.dropLast (by simp [List.length_dropLast]; omega)
      (fun s hs => hdd s (List.dropLast_subset B hs))]
    rw [List.dropLast_eq_take, List.take_take]
    congr 1
    simp [List.length_dropLast]
    omega

theorem foldl_normStep_mem {M : List Str} :
    ∀ acc, ∀ s ∈ M.foldl normStep acc, s ∈ acc ∨ s ∈ M := by
  induction M with
  | nil => intro acc s hs; exact Or.inl hs
  | cons x xs ih =>
    intro acc s hs
    rw [List.foldl_cons] at hs
    rcases ih (normStep acc x) s hs with h | h
    · unfold normStep at h
      split at h
      · exact Or.inl h
      · split at h
        · exact Or.inl (List.dropLast_subset acc h)
        · rcases List.mem_append.mp h with h' | h'
          · exact Or.inl h'
          · simp at h'
            exact Or.inr (h' ▸ List.mem_cons_self x xs)
    · exact Or.inr (List.mem_cons_of_mem x h)

theorem normList_step {acc : List Str} (seg : Str) (h : NormList acc) :
    NormList (normStep acc seg) := by
  rcases h with ⟨k, R, hacc, hR⟩
  by_cases h1 : seg = [] ∨ seg = ['.']
  · rw [normStep_skip acc h1]; exact ⟨k, R, hacc, hR⟩
  · push_neg at h1
    by_cases h3 : seg = dd
    · subst h3
      cases hRe : R.reverse with
      | nil =>
        have hRnil : R = [] := by simpa using congrArg List.reverse hRe
        subst hRnil
        rw [normStep_dd_push (by
          subst hacc
          cases k with
          | zero => exact Or.inl (by simp)
          | succ m =>
            right
            simp only [List.append_nil]
            rw [List.replicate_succ' m, List.getLast?_concat])]
        refine ⟨k + 1, [], ?_, by simp⟩
        subst hacc
        simp [List.replicate_succ' k]
      | cons r rs =>
        have hRr : R = rs.reverse ++ [r] := by
          have := congrArg List.reverse hRe
          simpa using this
        have hrR : r ∈ R := by rw [hRr]; simp
        have haccne : acc ≠ [] := by
          subst hacc; rw [hRr]; simp
        have hlast : acc.getLast? ≠ some dd := by
          subst hacc
          rw [hRr, ← List.append_assoc, List.getLast?_concat]
          intro he
          exact (hR r hrR).2 (Option.some_inj.mp he)
        rw [normStep_dd_pop haccne hlast]
        refine ⟨k, rs.reverse, ?_, fun s hs => hR s (by rw [hRr]; simp [hs])⟩
        subst hacc
        rw [hRr, ← List.append_assoc, List.dropLast_concat]
    · rw [normStep_push acc h1.1 h1.2 h3]
      refine ⟨k, R ++ [seg], by rw [hacc, List.append_assoc], ?_⟩
      intro s hs
      rcases List.mem_append.mp hs with h' | h'
      · exact hR s h'
      · simp at h'
        exact h' ▸ ⟨⟨h1.1, h1.2⟩, h3⟩

theorem normList_foldl (M : List Str) :
    ∀ acc, NormList acc → NormList (M.foldl normStep acc) := by
  induction M with
  | nil => intro acc h; exact h
  | cons x xs ih =>
    intro acc h
    rw [List.foldl_cons]
    exact ih _ (normList_step x h)

theorem normList_normalizeSegmentsList (M : List Str) :
    NormList (normalizeSegmentsList M) :=
  normList_foldl M [] ⟨0, [], rfl, by simp⟩

theorem mem_normalizeSegmentsList {M : List Str} {s : Str}
    (h : s ∈ normalizeSegmentsList M) : s ∈ M := by
  rcases foldl_normStep_mem [] s h with h' | h'
  · simp at h'
  · exact h'

theorem normList_clean {L : List Str} (h : NormList L) :
    ∀ s ∈ L, CleanSeg s := by
  rcases h with ⟨k, R, hL, hR⟩
  intro s hs
  rw [hL] at hs
  rcases List.mem_append.mp hs with h' | h'
  · have : s = dd := List.eq_of_mem_replicate h'
    subst this
    exact ⟨by decide, by decide⟩
  · exact (hR s h').1

theorem normList_fixpoint {L : List Str} (h : NormList L) :
    normalizeSegmentsList L = L := by
  rcases h with ⟨k, R, hL, hR⟩
  subst hL
  unfold normalizeSegmentsList
  rw [List.foldl_append]
  have h1 : (List.replicate k dd).foldl normStep [] = List.replicate k dd := by
    have := foldl_normStep_ddrun k 0
    simpa using this
  rw [h1, foldl_normStep_push (fun s hs => ⟨(hR s hs).1.1, (hR s hs).1.2, (hR s hs).2⟩)]

/-! ### The shape of `normalize` -/

theorem seqOf_normList (p : Str) : NormList (seqOf p) :=
  normList_normalizeSegmentsList _

theorem seqOf_noSep (p : Str) : ∀ s ∈ seqOf p, sep ∉ s := fun s hs =>
  mem_splitOnChar_not_mem s (mem_normalizeSegmentsList hs)

theorem joinChar_take_two {M : List Str} (hnn : ∀ s ∈ M, s ≠ [])
    (hnd : ∀ s ∈ M, s ≠ ['.']) (hns : ∀ s ∈ M, sep ∉ s) :
    (joinChar sep M).take 2 ≠ ['.', sep] := by
  cases M with
  | nil => simp [joinChar]
  | cons s rest =>
    cases s with
    | nil => exact absurd rfl (hnn [] (List.mem_cons_self [] rest))
    | cons x t =>
      cases t with
      | nil =>
        have hx : x ≠ '.' := by
          intro h
          exact hnd [x] (List.mem_cons_self _ rest) (by rw [h])
        cases rest with
        | nil =>
          intro h
          simp [joinChar] at h
        | cons r rs =>
          rw [joinChar_cons sep [x] (by simp)]
          intro h
          simp at h
          exact hx h
      | cons y t2 =>
        have hy : y ≠ sep := by
          intro h
          exact hns (x :: y :: t2) (List.mem_cons_self _ rest)
            (h ▸ List.mem_cons_of_mem x (List.mem_cons_self y t2))
        cases rest with
        | nil =>
          intro h
          simp [joinChar, List.take_succ_cons] at h
          exact hy h.2
        | cons r rs =>
          rw [joinChar_cons sep (x :: y :: t2) (by simp)]
          intro h
          simp [List.take_succ_cons] at h
          exact hy h.2

theorem joinChar_ne_sepStr {M : List Str} (hnn : ∀ s ∈ M, s ≠ [])
    (hns : ∀ s ∈ M, sep ∉ s) : joinChar sep M ≠ [sep] := by
  cases M with
  | nil => simp [joinChar]
  | cons s rest =>
    cases rest with
    | nil =>
      intro h
      have : joinChar sep [s] = s := rfl
      rw [this] at h
      exact hns s (List.mem_cons_self s []) (h ▸ List.mem_cons_self sep [])
    | cons t ts =>
      rw [joinChar_cons sep s (by simp)]
      intro h
      have hlen := congrArg List.length h
      have hs : s ≠ [] := hnn s (List.mem_cons_self s _)
      have hJ : joinChar sep (t :: ts) ≠ [] :=
        joinChar_ne_nil (by simp) (fun u hu => hnn u (List.mem_cons_of_mem s hu))
      simp [List.length_append] at hlen
      have h1 : 1 ≤ s.length := List.length_pos.mpr hs
      have h2 : 1 ≤ (joinChar sep (t :: ts)).length := List.length_pos.mpr hJ
      omega

theorem isAbsolute_cons (c : Char) (t : Str) :
    isAbsolute (c :: t) = decide (c = sep) := rfl

theorem normalize_abs_nil {p : Str} (h : isAbsolute p = true)
    (hM : seqOf p = []) : normalize p = [sep] := by
  unfold normalize
  have h0 : normalizeSegments (splitOnChar sep p) = joinChar sep (seqOf p) := rfl
  rw [h0, hM, h]
  simp [joinChar]

theorem normalize_abs_cons {p : Str} (h : isAbsolute p = true)
    (hM : seqOf p ≠ []) : normalize p = sep :: joinChar sep (seqOf p) := by
  have hclean := normList_clean (seqOf_normList p)
  have hnn : ∀ s ∈ seqOf p, s ≠ [] := fun s hs => (hclean s hs).1
  have hns := seqOf_noSep p
  have hJ : joinChar sep (seqOf p) ≠ [] := joinChar_ne_nil hM hnn
  unfold normalize
  have h0 : normalizeSegments (splitOnChar sep p) = joinChar sep (seqOf p) := rfl
  rw [h0, h]
  simp only [if_true]
  have htake : (sep :: joinChar sep (seqOf p)).take 2 ≠ ['.', sep] := by
    intro hcontra
    rw [List.take_succ_cons] at hcontra
    have := (List.cons.injEq _ _ _ _).mp hcontra
    exact absurd this.1 (by decide)
  rw [if_neg htake]
  have hne1 : sep :: joinChar sep (seqOf p) ≠ [sep] := by
    intro hcontra
    exact hJ (by simpa using hcontra)
  rw [if_neg hne1]
  have hlast : (sep :: joinChar sep (seqOf p)).getLast? ≠ some sep := by
    rcases hx : joinChar sep (seqOf p) with _ | ⟨x, xs⟩
    · exact absurd hx hJ
    · rw [List.getLast?_cons_cons]
      have := joinChar_getLast hM hnn hns
      rw [hx] at this
      exact this
  rw [if_neg hlast, if_neg (by simp)]

theorem normalize_rel_nil {p : Str} (h : isAbsolute p = false)
    (hM : seqOf p = []) : normalize p = ['.'] := by
  unfold normalize
  have h0 : normalizeSegments (splitOnChar sep p) = joinChar sep (seqOf p) := rfl
  rw [h0, hM, h]
  simp [joinChar]

theorem normalize_rel_cons {p : Str} (h : isAbsolute p = false)
    (hM : seqOf p ≠ []) : normalize p = joinChar sep (seqOf p) := by
  have hclean := normList_clean (seqOf_normList p)
  have hnn : ∀ s ∈ seqOf p, s ≠ [] := fun s hs => (hclean s hs).1
  have hnd : ∀ s ∈ seqOf p, s ≠ ['.'] := fun s hs => (hclean s hs).2
  have hns := seqOf_noSep p
  have hJ : joinChar sep (seqOf p) ≠ [] := joinChar_ne_nil hM hnn
  unfold normalize
  have h0 : normalizeSegments (splitOnChar sep p) = joinChar sep (seqOf p) := rfl
  rw [h0, h]
  simp only [Bool.false_eq_true, if_false]
  rw [if_neg (joinChar_take_two hnn hnd hns)]
  rw [if_neg (joinChar_ne_sepStr hnn hns)]
  rw [if_neg (joinChar_getLast hM hnn hns), if_neg hJ]

/-! ### `seqOf` and `isAbsolute` are stable under `normalize` -/

theorem seqOf_joinChar {M : List Str} (h : NormList M)
    (hns : ∀ s ∈ M, sep ∉ s) (hM : M ≠ []) :
    seqOf (joinChar sep M) = M := by
  unfold seqOf
  rw [splitOnChar_joinChar hM hns]
  exact normList_fixpoint h

theorem seqOf_sep_cons (t : Str) : seqOf (sep :: t) = seqOf t := by
  unfold seqOf
  rw [splitOnChar_cons_self]
  unfold normalizeSegmentsList
  rw [List.foldl_cons, normStep_skip [] (Or.inl rfl)]

theorem seqOf_normalize (p : Str) : seqOf (normalize p) = seqOf p := by
  have hnl := seqOf_normList p
  have hns := seqOf_noSep p
  cases habs : isAbsolute p with
  | true =>
    by_cases hM : seqOf p = []
    · rw [normalize_abs_nil habs hM, hM]
      decide
    · rw [normalize_abs_cons habs hM, seqOf_sep_cons, seqOf_joinChar hnl hns hM]
  | false =>
    by_cases hM : seqOf p = []
    · rw [normalize_rel_nil habs hM, hM]
      decide
    · rw [normalize_rel_cons habs hM, seqOf_joinChar hnl hns hM]

theorem isAbsolute_normalize (p : Str) :
    isAbsolute (normalize p) = isAbsolute p := by
  have hclean := normList_clean (seqOf_normList p)
  have hns := seqOf_noSep p
  cases habs : isAbsolute p with
  | true =>
    by_cases hM : seqOf p = []
    · rw [normalize_abs_nil habs hM]; decide
    · rw [normalize_abs_cons habs hM]; simp [isAbsolute_cons]
  | false =>
    by_cases hM : seqOf p = []
    · rw [normalize_rel_nil habs hM]; decide
    · rw [normalize_rel_cons habs hM]
      rcases hsq : seqOf p with _ | ⟨s, rest⟩
      · exact absurd hsq hM
      · have hs : s ≠ [] := (hclean s (hsq ▸ List.mem_cons_self s rest)).1
        rcases hx : s with _ | ⟨x, xs⟩
        · exact absurd hx hs
        · have hxs : x ≠ sep := by
            intro h
            exact hns s (hsq ▸ List.mem_cons_self s rest)
              (hx ▸ h ▸ List.mem_cons_self x xs)
          cases rest with
          | nil => simp [joinChar, isAbsolute_cons, hxs]
          | cons t ts =>
            rw [joinChar_cons sep (x :: xs) (by simp)]
            simp [isAbsolute_cons, hxs]

theorem normalize_idem (p : Str) : normalize (normalize p) = normalize p := by
  have h1 := isAbsolute_normalize p
  have h2 := seqOf_normalize p
  cases habs : isAbsolute p with
  | true =>
    rw [habs] at h1
    by_cases hM : seqOf p = []
    · rw [normalize_abs_nil h1 (by rw [h2, hM]), normalize_abs_nil habs hM]
    · rw [normalize_abs_cons h1 (by rw [h2]; exact hM), h2,
        ← normalize_abs_cons habs hM]
  | false =>
    rw [habs] at h1
    by_cases hM : seqOf p = []
    · rw [normalize_rel_nil h1 (by rw [h2, hM]), normalize_rel_nil habs hM]
    · rw [normalize_rel_cons h1 (by rw [h2]; exact hM), h2,
        ← normalize_rel_cons habs hM]

/-! ### Canonical forms of constructed paths -/

/-- The canonical string of a normalized absolute path with segments `M`. -/
def absForm (M : List Str) : Str :=
  if M = [] then [sep] else sep :: joinChar sep M

/-- The canonical string of a normalized relative path with segments `M`. -/
def relForm (M : List Str) : Str :=
  if M = [] then ['.'] else joinChar sep M

theorem isAbsolute_absForm (M : List Str) : isAbsolute (absForm M) = true := by
  unfold absForm
  split <;> simp [isAbsolute_cons]

theorem seqOf_absForm {M : List Str} (h : NormList M)
    (hns : ∀ s ∈ M, sep ∉ s) : seqOf (absForm M) = M := by
  unfold absForm
  by_cases hM : M = []
  · rw [if_pos hM, hM]; decide
  · rw [if_neg hM, seqOf_sep_cons, seqOf_joinChar h hns hM]

theorem seqOf_relForm {M : List Str} (h : NormList M)
    (hns : ∀ s ∈ M, sep ∉ s) : seqOf (relForm M) = M := by
  unfold relForm
  by_cases hM : M = []
  · rw [if_pos hM, hM]; decide
  · rw [if_neg hM]; exact seqOf_joinChar h hns hM

theorem isAbsolute_relForm {M : List Str} (h : NormList M)
    (hns : ∀ s ∈ M, sep ∉ s) : isAbsolute (relForm M) = false := by
  unfold relForm
  by_cases hM : M = []
  · rw [if_pos hM]; decide
  · rw [if_neg hM]
    have hclean := normList_clean h
    rcases hx : M with _ | ⟨s, rest⟩
    · exact absurd hx hM
    · have hs : s ≠ [] := (hclean s (hx ▸ List.mem_cons_self s rest)).1
      rcases hy : s with _ | ⟨x, xs⟩
      · exact absurd hy hs
      · have hxs : x ≠ sep := fun he =>
          hns s (hx ▸ List.mem_cons_self s rest) (hy ▸ he ▸ List.mem_cons_self x xs)
        cases rest with
        | nil => simp [joinChar, isAbsolute_cons, hxs]
        | cons t ts =>
          rw [joinChar_cons sep (x :: xs) (by simp)]
          simp [isAbsolute_cons, hxs]

theorem normalize_eq_form (p : Str) :
    normalize p = if isAbsolute p then absForm (seqOf p) else relForm (seqOf p) := by
  cases habs : isAbsolute p with
  | true =>
    by_cases hM : seqOf p = []
    · rw [normalize_abs_nil habs hM]; simp [absForm, hM]
    · rw [normalize_abs_cons habs hM]; simp [absForm, hM]
  | false =>
    by_cases hM : seqOf p = []
    · rw [normalize_rel_nil habs hM]; simp [relForm, hM]
    · rw [normalize_rel_cons habs hM]; simp [relForm, hM]

theorem resolveP_single_abs {p : Str} (h : isAbsolute p = true) :
    resolveP [p] = sep :: joinChar sep (seqOf p) := by
  have hp : p ≠ [] := by
    intro he; subst he; simp [isAbsolute] at h
  unfold resolveP joinOrResolve
  have hfil : [p].filter strTruthy = [p] := by
    simp [strTruthy, List.isEmpty_iff, hp]
  rw [hfil]
  have htake : takeFromLastAbs [p] = some [p] := by
    unfold takeFromLastAbs
    simp [takeFromLastAbs, h]
  simp only [if_true, htake]
  simp [h, normalizeSegments]
  rfl

theorem absolutePathNew_eq {s p : Str} (h : absolutePathNew s = some p) :
    p = absForm (seqOf s) := by
  unfold absolutePathNew at h
  by_cases habs : isAbsolute s = true
  · rw [if_pos habs] at h
    have hp := Option.some_inj.mp h
    rw [← hp, resolveP_single_abs habs]
    have hq : seqOf (sep :: joinChar sep (seqOf s)) = seqOf s := by
      rw [seqOf_sep_cons]
      by_cases hM : seqOf s = []
      · rw [hM]; decide
      · exact seqOf_joinChar (seqOf_normList s) (seqOf_noSep s) hM
    rw [normalize_eq_form, if_pos (by simp [isAbsolute_cons]), hq]
  · rw [if_neg habs] at h
    exact absurd h (by simp)

theorem relativePathNew_eq {s p : Str} (h : relativePathNew s = some p) :
    p = relForm (seqOf s) := by
  unfold relativePathNew at h
  by_cases habs : isAbsolute s = true
  · rw [if_pos habs] at h
    exact absurd h (by simp)
  · rw [if_neg habs] at h
    have hp := Option.some_inj.mp h
    rw [← hp, normalize_eq_form, if_neg habs]

theorem conformAbsolute_absForm (M : List Str) :
    conformAbsolute (absForm M) true = absForm M := by
  unfold conformAbsolute
  rw [if_pos rfl, if_pos (isAbsolute_absForm M)]

theorem cloneAbs_absForm {M : List Str} (h : NormList M)
    (hns : ∀ s ∈ M, sep ∉ s) : cloneAbs (absForm M) = absForm M := by
  unfold cloneAbs
  rw [conformAbsolute_absForm, resolveP_single_abs (isAbsolute_absForm M),
    seqOf_absForm h hns]
  have hq : seqOf (sep :: joinChar sep M) = M := by
    rw [seqOf_sep_cons]
    by_cases hM : M = []
    · rw [hM]; decide
    · exact seqOf_joinChar h hns hM
  rw [normalize_eq_form, if_pos (by simp [isAbsolute_cons]), hq]

/-! ### The segment invariant (claim C1) -/

/-- The segment-sequence invariant of the claim: no empty and no `'.'`
segment, and `'..'` only as a leading run. -/
def SegOk (L : List Str) : Prop :=
  (∀ s ∈ L, s ≠ [] ∧ s ≠ ['.']) ∧
  ∃ k R, L = List.replicate k dd ++ R ∧ ∀ s ∈ R, s ≠ dd

/-- The path-string invariant: either the relative sentinel `'.'`, or the
`segments` of the string satisfy `SegOk`. -/
def PathInv (p : Str) : Prop := p = ['.'] ∨ SegOk (segmentsOf p)

theorem segOk_of_normList {L : List Str} (h : NormList L) : SegOk L := by
  refine ⟨fun s hs => normList_clean h s hs, ?_⟩
  rcases h with ⟨k, R, hL, hR⟩
  exact ⟨k, R, hL, fun s hs => (hR s hs).2⟩

theorem filter_strTruthy_of_nonnil {L : List Str} (h : ∀ s ∈ L, s ≠ []) :
    L.filter strTruthy = L := by
  apply List.filter_eq_self.mpr
  intro s hs
  simp [strTruthy, List.isEmpty_iff, h s hs]

theorem segmentsOf_absForm {M : List Str} (h : NormList M)
    (hns : ∀ s ∈ M, sep ∉ s) : segmentsOf (absForm M) = M := by
  unfold segmentsOf absForm
  by_cases hM : M = []
  · rw [if_pos hM, hM]; decide
  · rw [if_neg hM, splitOnChar_cons_self, splitOnChar_joinChar hM hns]
    rw [List.filter_cons]
    have : strTruthy ([] : Str) = false := by decide
    rw [this]
    simp only [Bool.false_eq_true, if_false]
    exact filter_strTruthy_of_nonnil (fun s hs => (normList_clean h s hs).1)

theorem segmentsOf_relForm {M : List Str} (h : NormList M)
    (hns : ∀ s ∈ M, sep ∉ s) (hM : M ≠ []) : segmentsOf (relForm M) = M := by
  unfold segmentsOf relForm
  rw [if_neg hM, splitOnChar_joinChar hM hns]
  exact filter_strTruthy_of_nonnil (fun s hs => (normList_clean h s hs).1)

theorem absolutePathNew_normalize {s p : Str} (h : absolutePathNew s = some p) :
    p = normalize (resolveP [s]) := by
  unfold absolutePathNew at h
  by_cases habs : isAbsolute s = true
  · rw [if_pos habs] at h
    exact (Option.some_inj.mp h).symm
  · rw [if_neg habs] at h
    exact absurd h (by simp)

theorem relativePathNew_normalize {s p : Str} (h : relativePathNew s = some p) :
    p = normalize s := by
  unfold relativePathNew at h
  by_cases habs : isAbsolute s = true
  · rw [if_pos habs] at h
    exact absurd h (by simp)
  · rw [if_neg habs] at h
    exact (Option.some_inj.mp h).symm

theorem pathInv_normalize (y : Str) : PathInv (normalize y) := by
  rw [normalize_eq_form]
  have hnl := seqOf_normList y
  have hns := seqOf_noSep y
  cases habs : isAbsolute y with
  | true =>
    right
    simp only [if_true]
    rw [segmentsOf_absForm hnl hns]
    exact segOk_of_normList hnl
  | false =>
    simp only [Bool.false_eq_true, if_false]
    by_cases hM : seqOf y = []
    · left; simp [relForm, hM]
    · right
      rw [segmentsOf_relForm hnl hns hM]
      exact segOk_of_normList hnl

/-! ### `resolve` as `join` from the last absolute argument (claim C4) -/

theorem strTruthy_of_abs {s : Str} (h : isAbsolute s = true) :
    strTruthy s = true := by
  cases s with
  | nil => simp [isAbsolute] at h
  | cons c t => simp [strTruthy]

theorem noAbs_takeFromLastAbs {m : List Str}
    (h : ∀ s ∈ m, isAbsolute s = false) : takeFromLastAbs m = none := by
  induction m with
  | nil => rfl
  | cons x xs ih =>
    unfold takeFromLastAbs
    rw [ih (fun s hs => h s (List.mem_cons_of_mem x hs))]
    simp [h x (List.mem_cons_self x xs)]

theorem takeFromLastAbs_append {a : Str} (xs : List Str) {ys : List Str}
    (ha : isAbsolute a = true) (hys : ∀ s ∈ ys, isAbsolute s = false) :
    takeFromLastAbs (xs ++ a :: ys) = some (a :: ys) := by
  induction xs with
  | nil =>
    rw [List.nil_append]
    unfold takeFromLastAbs
    rw [noAbs_takeFromLastAbs hys]
    simp [ha]
  | cons x xt ih =>
    rw [List.cons_append]
    unfold takeFromLastAbs
    rw [ih]

theorem dropWhile_cons_prop {α : Type} {p : α → Bool} {l : List α} {a : α}
    {rest : List α} (h : l.dropWhile p = a :: rest) : p a = false := by
  induction l with
  | nil => simp [List.dropWhile] at h
  | cons x xs ih =>
    rw [List.dropWhile_cons] at h
    by_cases hx : p x
    · rw [if_pos hx] at h
      exact ih h
    · rw [if_neg hx] at h
      have := (List.cons.injEq _ _ _ _).mp h
      rw [← this.1]
      simpa using hx

theorem resolveP_eq_joinP (l : List Str) :
    resolveP l = joinP (lastAbsSuffix l) := by
  rcases hx : l.reverse.dropWhile (fun s => !(isAbsolute s)) with _ | ⟨a, rest⟩
  · have hall : ∀ s ∈ l, isAbsolute s = false := by
      intro s hs
      have h1 := List.dropWhile_eq_nil_iff.mp hx s (List.mem_reverse.mpr hs)
      simpa using h1
    have hsuf : lastAbsSuffix l = l := by
      unfold lastAbsSuffix
      rw [hx]
    rw [hsuf]
    unfold resolveP joinP joinOrResolve
    simp only [eq_self_iff_true, if_true, Bool.false_eq_true, if_false]
    rw [noAbs_takeFromLastAbs (fun s hs => hall s (List.mem_of_mem_filter hs))]
  · have ha : isAbsolute a = true := by
      have := dropWhile_cons_prop hx
      simpa using this
    set T' := l.reverse.takeWhile (fun s => !(isAbsolute s)) with hT'
    have hT : ∀ s ∈ T'.reverse, isAbsolute s = false := by
      intro s hs
      have := List.mem_takeWhile_imp (List.mem_reverse.mp hs)
      simpa using this
    have hdecomp : l = rest.reverse ++ a :: T'.reverse := by
      have h1 := List.takeWhile_append_dropWhile
        (p := fun s => !(isAbsolute s)) (l := l.reverse)
      rw [hx, ← hT'] at h1
      have h3 := congrArg List.reverse h1
      rw [List.reverse_reverse] at h3
      rw [← h3]
      simp
    have hsuf : lastAbsSuffix l = a :: T'.reverse := by
      unfold lastAbsSuffix
      rw [hx, ← hT']
    rw [hsuf]
    have hfilter : l.filter strTruthy
        = rest.reverse.filter strTruthy ++ a :: T'.reverse.filter strTruthy := by
      conv_lhs => rw [hdecomp]
      rw [List.filter_append, List.filter_cons, if_pos (strTruthy_of_abs ha)]
    have htake : takeFromLastAbs (l.filter strTruthy)
        = some (a :: T'.reverse.filter strTruthy) := by
      rw [hfilter]
      exact takeFromLastAbs_append _ ha
        (fun s hs => hT s (List.mem_of_mem_filter hs))
    unfold resolveP joinP joinOrResolve
    simp only [eq_self_iff_true, if_true, Bool.false_eq_true, if_false]
    rw [htake]
    simp only [List.filter_cons, if_pos (strTruthy_of_abs ha)]
    simp [ha]

theorem conformAbsolute_true_abs (x : Str) :
    isAbsolute (conformAbsolute x true) = true := by
  unfold conformAbsolute
  rw [if_pos rfl]
  by_cases hx : isAbsolute x = true
  · rw [if_pos hx]; exact hx
  · rw [if_neg hx]; simp [isAbsolute_cons]

theorem isAbsolute_cloneAbs (x : Str) : isAbsolute (cloneAbs x) = true := by
  unfold cloneAbs
  rw [isAbsolute_normalize, resolveP_single_abs (conformAbsolute_true_abs x)]
  simp [isAbsolute_cons]

/-! ### `relativeTo` and `join` (claim C3) -/

theorem absForm_eq_sepcons (M : List Str) :
    absForm M = sep :: joinChar sep M := by
  unfold absForm
  by_cases hM : M = []
  · rw [if_pos hM, hM]; rfl
  · rw [if_neg hM]

theorem lcpLen_le_left : ∀ A B : List Str, lcpLen A B ≤ A.length := by
  intro A
  induction A with
  | nil => intro B; cases B <;> simp [lcpLen]
  | cons a as ih =>
    intro B
    cases B with
    | nil => simp [lcpLen]
    | cons b bs =>
      unfold lcpLen
      by_cases hab : a = b
      · rw [if_pos hab]
        simpa using ih bs
      · rw [if_neg hab]
        simp

theorem lcpLen_le_right : ∀ A B : List Str, lcpLen A B ≤ B.length := by
  intro A
  induction A with
  | nil => intro B; cases B <;> simp [lcpLen]
  | cons a as ih =>
    intro B
    cases B with
    | nil => simp [lcpLen]
    | cons b bs =>
      unfold lcpLen
      by_cases hab : a = b
      · rw [if_pos hab]
        simpa using ih bs
      · rw [if_neg hab]
        simp

theorem lcpLen_take : ∀ A B : List Str, A.take (lcpLen A B) = B.take (lcpLen A B) := by
  intro A
  induction A with
  | nil => intro B; cases B <;> simp [lcpLen]
  | cons a as ih =>
    intro B
    cases B with
    | nil => simp [lcpLen]
    | cons b bs =>
      unfold lcpLen
      by_cases hab : a = b
      · rw [if_pos hab, List.take_succ_cons, List.take_succ_cons, hab, ih bs]
      · rw [if_neg hab]
        simp

theorem lcpLen_zero_of_dd {B C : List Str} (hBdd : ∀ s ∈ B, s ≠ dd)
    {C' : List Str} {m : Nat} (hm : m ≠ 0) (hC : C = List.replicate m dd ++ C') :
    lcpLen B C = 0 := by
  cases B with
  | nil => cases C <;> simp [lcpLen]
  | cons b bs =>
    cases m with
    | zero => exact absurd rfl hm
    | succ n =>
      rw [hC, List.replicate_succ, List.cons_append]
      unfold lcpLen
      rw [if_neg (hBdd b (List.mem_cons_self b bs))]

/-- The central computation of the `relativeTo`/`join` inverse: feeding
the up-levels and the remaining child segments through the normalizer
stack, starting from the `'..'`-free base segments, reproduces exactly
the child segments. -/
theorem key_fold {B C : List Str}
    (hBdd : ∀ s ∈ B, s ≠ dd) (hC : NormList C) :
    (List.replicate (B.length - lcpLen B C) dd ++ C.drop (lcpLen B C)).foldl
      normStep B = C := by
  rcases hC with ⟨m, C', hCeq, hC'⟩
  by_cases hm : m = 0
  · subst hm
    rw [List.replicate_zero, List.nil_append] at hCeq
    rw [← hCeq] at hC'
    rw [List.foldl_append]
    rw [foldl_normStep_pops B (Nat.sub_le _ _) hBdd]
    have hi : B.length - (B.length - lcpLen B C) = lcpLen B C := by
      have := lcpLen_le_left B C
      omega
    rw [hi, lcpLen_take]
    rw [foldl_normStep_push (fun s hs => by
      have hmem : s ∈ C := List.drop_subset _ _ hs
      exact ⟨(hC' s hmem).1.1, (hC' s hmem).1.2, (hC' s hmem).2⟩)]
    exact List.take_append_drop _ C
  · have hi0 : lcpLen B C = 0 := lcpLen_zero_of_dd hBdd hm hCeq
    rw [hi0, Nat.sub_zero, List.drop_zero, List.foldl_append]
    rw [foldl_normStep_pops B (le_refl _) hBdd]
    rw [Nat.sub_self, List.take_zero]
    exact normList_fixpoint ⟨m, C', hCeq, hC'⟩

theorem fromParts_absForm {M : List Str} (h : NormList M)
    (hns : ∀ s ∈ M, sep ∉ s) :
    (splitOnChar sep (resolveP [absForm M])).filter strTruthy = M := by
  rw [resolveP_single_abs (isAbsolute_absForm M), seqOf_absForm h hns,
    splitOnChar_cons_self, List.filter_cons]
  have h0 : strTruthy ([] : Str) = false := by decide
  rw [h0]
  simp only [Bool.false_eq_true, if_false]
  by_cases hM : M = []
  · subst hM; decide
  · rw [splitOnChar_joinChar hM hns]
    exact filter_strTruthy_of_nonnil (fun s hs => (normList_clean h s hs).1)

theorem dd_noSep : sep ∉ dd := by decide

theorem R_normList {B C : List Str} (hBdd : ∀ s ∈ B, s ≠ dd) (hC : NormList C) :
    NormList (List.replicate (B.length - lcpLen B C) dd ++ C.drop (lcpLen B C)) := by
  rcases hC with ⟨m, C', hCeq, hC'⟩
  by_cases hm : m = 0
  · subst hm
    rw [List.replicate_zero, List.nil_append] at hCeq
    rw [← hCeq] at hC'
    exact ⟨B.length - lcpLen B C, C.drop (lcpLen B C), rfl,
      fun s hs => hC' s (List.drop_subset _ _ hs)⟩
  · rw [lcpLen_zero_of_dd hBdd hm hCeq, Nat.sub_zero, List.drop_zero, hCeq,
      ← List.append_assoc, ← List.replicate_add]
    exact ⟨B.length + m, C', rfl, hC'⟩

theorem R_noSep {B C : List Str} (hCns : ∀ s ∈ C, sep ∉ s) :
    ∀ s ∈ List.replicate (B.length - lcpLen B C) dd ++ C.drop (lcpLen B C),
      sep ∉ s := by
  intro s hs
  rcases List.mem_append.mp hs with h | h
  · rw [List.eq_of_mem_replicate h]
    exact dd_noSep
  · exact hCns s (List.drop_subset _ _ h)

theorem relForm_truthy {M : List Str} (h : NormList M) :
    strTruthy (relForm M) = true := by
  unfold relForm
  by_cases hM : M = []
  · rw [if_pos hM]; decide
  · rw [if_neg hM]
    have := joinChar_ne_nil (c := sep) hM (fun s hs => (normList_clean h s hs).1)
    simp [strTruthy, List.isEmpty_iff, this]

theorem normalize_relForm_fix {M : List Str} (h : NormList M)
    (hns : ∀ s ∈ M, sep ∉ s) : normalize (relForm M) = relForm M := by
  rw [normalize_eq_form, if_neg (by rw [isAbsolute_relForm h hns]; simp),
    seqOf_relForm h hns]

theorem relative_absForm {B C : List Str}
    (hB : NormList B) (hBns : ∀ s ∈ B, sep ∉ s)
    (hC : NormList C) (hCns : ∀ s ∈ C, sep ∉ s) :
    relative (absForm B) (absForm C)
      = relForm (List.replicate (B.length - lcpLen B C) dd
          ++ C.drop (lcpLen B C)) := by
  unfold relative
  rw [fromParts_absForm hB hBns, fromParts_absForm hC hCns]
  dsimp only
  set R := List.replicate (B.length - lcpLen B C) dd ++ C.drop (lcpLen B C)
    with hR
  by_cases hRnil : R = []
  · rw [hRnil]
    simp [joinChar, relForm]
  · have hRnn : ∀ s ∈ R, s ≠ [] := by
      intro s hs
      rw [hR] at hs
      rcases List.mem_append.mp hs with h | h
      · rw [List.eq_of_mem_replicate h]; decide
      · exact (normList_clean hC s (List.drop_subset _ _ h)).1
    have hJ : joinChar sep R ≠ [] := joinChar_ne_nil hRnil hRnn
    rw [if_neg hJ, relForm, if_neg hRnil]

theorem joinP_two_abs {x y : Str} (hx : isAbsolute x = true)
    (hy : strTruthy y = true) :
    joinP [x, y] = [sep] ++ normalizeSegments (splitOnChar sep x ++ splitOnChar sep y) := by
  unfold joinP joinOrResolve
  simp only [Bool.false_eq_true, if_false]
  rw [List.filter_cons, if_pos (strTruthy_of_abs hx), List.filter_cons, if_pos hy]
  simp [hx]

theorem normSegsList_nil_cons (S : List Str) :
    normalizeSegmentsList ([] :: S) = normalizeSegmentsList S := by
  unfold normalizeSegmentsList
  rw [List.foldl_cons, normStep_skip [] (Or.inl rfl)]

theorem normSegsList_split_joinChar {B : List Str} (hB : NormList B)
    (hns : ∀ s ∈ B, sep ∉ s) :
    normalizeSegmentsList (splitOnChar sep (joinChar sep B)) = B := by
  by_cases hBnil : B = []
  · subst hBnil; decide
  · rw [splitOnChar_joinChar hBnil hns]
    exact normList_fixpoint hB

theorem B_eq_C_of_R_nil {B C : List Str}
    (h : List.replicate (B.length - lcpLen B C) dd ++ C.drop (lcpLen B C) = []) :
    B = C := by
  rcases List.append_eq_nil.mp h with ⟨h1, h2⟩
  have hup : B.length - lcpLen B C = 0 := by
    have := congrArg List.length h1
    simpa using this
  have hdrop : C.length ≤ lcpLen B C := by
    have := congrArg List.length h2
    simp at this
    omega
  have hleB := lcpLen_le_left B C
  have hleC := lcpLen_le_right B C
  have hiB : lcpLen B C = B.length := by omega
  have hiC : lcpLen B C = C.length := by omega
  have htk := lcpLen_take B C
  rw [hiB, List.take_length] at htk
  rw [htk]
  rw [hiB] at hiC
  rw [hiC, List.take_length]

theorem absJoin_inverse {B C : List Str}
    (hB : NormList B) (hBns : ∀ s ∈ B, sep ∉ s) (hBdd : ∀ s ∈ B, s ≠ dd)
    (hC : NormList C) (hCns : ∀ s ∈ C, sep ∉ s) :
    absJoin (absForm B) [relForm (List.replicate (B.length - lcpLen B C) dd
      ++ C.drop (lcpLen B C))] = absForm C := by
  set R := List.replicate (B.length - lcpLen B C) dd ++ C.drop (lcpLen B C)
    with hR
  have hRnorm : NormList R := R_normList hBdd hC
  unfold absJoin
  rw [List.filter_cons, if_pos (relForm_truthy hRnorm), List.filter_nil]
  rw [joinP_two_abs (isAbsolute_absForm B) (relForm_truthy hRnorm)]
  have hmain : normalizeSegmentsList
      (splitOnChar sep (absForm B) ++ splitOnChar sep (relForm R)) = C := by
    rw [absForm_eq_sepcons, splitOnChar_cons_self]
    rw [List.cons_append, normSegsList_nil_cons]
    unfold normalizeSegmentsList
    rw [List.foldl_append]
    have hfB : (splitOnChar sep (joinChar sep B)).foldl normStep [] = B :=
      normSegsList_split_joinChar hB hBns
    rw [hfB]
    by_cases hRnil : R = []
    · have hBC := B_eq_C_of_R_nil (hR ▸ hRnil)
      rw [hRnil]
      have : relForm ([] : List Str) = ['.'] := rfl
      rw [this]
      have hsp : splitOnChar sep ['.'] = [['.']] := by decide
      rw [hsp, List.foldl_cons, normStep_skip B (Or.inr rfl), List.foldl_nil]
      exact hBC
    · rw [relForm, if_neg hRnil,
        splitOnChar_joinChar hRnil (R_noSep hCns)]
      exact key_fold hBdd hC
  have hnsg : normalizeSegments
      (splitOnChar sep (absForm B) ++ splitOnChar sep (relForm R))
      = joinChar sep C := by
    unfold normalizeSegments
    rw [hmain]
  rw [hnsg]
  have : [sep] ++ joinChar sep C = sep :: joinChar sep C := rfl
  rw [this, ← absForm_eq_sepcons]
  by_cases hC0 : C = []
  · subst hC0; decide
  · rw [cloneAbs_absForm hC hCns]

theorem equalsAbs_absForm {C : List Str} (h : NormList C)
    (hns : ∀ s ∈ C, sep ∉ s) :
    equalsAbs (absForm C) (absForm C) = true := by
  unfold equalsAbs
  rw [cloneAbs_absForm h hns]
  simp

theorem pathInv_cloneAbs (x : Str) : PathInv (cloneAbs x) :=
  pathInv_normalize (resolveP [conformAbsolute x true])

theorem pathInv_cloneRel (x : Str) : PathInv (cloneRel x) :=
  pathInv_normalize (conformAbsolute x false)

end TPath

namespace TPath

/-- `idxOf?` finds nothing exactly when the character is absent. -/
theorem idxOf?_eq_none_iff (c : Char) : ∀ s : Str, idxOf? c s = none ↔ c ∉ s
  | [] => by simp [idxOf?]
  | a :: rest => by
    by_cases ha : a = c
    · subst ha
      simp [idxOf?]
    · simp only [idxOf?, if_neg ha, Option.map_eq_none', List.mem_cons, not_or]
      rw [idxOf?_eq_none_iff c rest]
      constructor
      · intro hn
        exact ⟨fun e => ha e.symm, hn⟩
      · intro hn
        exact hn.2

theorem takeWhile_ne_of_not_mem (c : Char) : ∀ s : Str, c ∉ s →
    s.takeWhile (fun a => a != c) = s
  | [], _ => rfl
  | a :: rest, h => by
    simp only [List.mem_cons, not_or] at h
    simp [List.takeWhile_cons, bne_iff_ne, Ne.symm h.1,
      takeWhile_ne_of_not_mem c rest h.2]

theorem dropWhile_ne_of_not_mem (c : Char) : ∀ s : Str, c ∉ s →
    s.dropWhile (fun a => a != c) = []
  | [], _ => rfl
  | a :: rest, h => by
    simp only [List.mem_cons, not_or] at h
    simp [List.dropWhile_cons, bne_iff_ne, Ne.symm h.1,
      dropWhile_ne_of_not_mem c rest h.2]

/-- When `idxOf?` finds an index, the scan-based split agrees with
`take`/`drop` at that index, which is in range. -/
theorem idxOf?_some_spec (c : Char) : ∀ (s : Str) (i : Nat), idxOf? c s = some i →
    s.takeWhile (fun a => a != c) = s.take i ∧
    s.dropWhile (fun a => a != c) = s.drop i ∧ i < s.length
  | [], i, h => by simp [idxOf?] at h
  | a :: rest, i, h => by
    by_cases ha : a = c
    · rw [idxOf?, if_pos ha] at h
      cases h
      subst ha
      refine ⟨?_, ?_, ?_⟩
      · simp [List.takeWhile_cons]
      · simp [List.dropWhile_cons]
      · simp
    · rw [idxOf?, if_neg ha] at h
      match hi : idxOf? c rest with
      | none => rw [hi] at h; simp at h
      | some j =>
        rw [hi] at h
        simp only [Option.map_some'] at h
        obtain ⟨ht, hd, hl⟩ := idxOf?_some_spec c rest j hi
        cases h
        refine ⟨?_, ?_, ?_⟩
        · simp [List.takeWhile_cons, bne_iff_ne, ha, ht, List.take_succ_cons]
        · simp [List.dropWhile_cons, bne_iff_ne, ha, hd, List.drop_succ_cons]
        · simpa using Nat.succ_lt_succ hl

theorem idxOf?_lt_length (c : Char) (s : Str) (i : Nat) (h : idxOf? c s = some i) :
    i < s.length := (idxOf?_some_spec c s i h).2.2

theorem idxOf?_append_of_not_mem_left (c : Char) : ∀ (u w : Str), c ∉ u →
    idxOf? c (u ++ w) = (idxOf? c w).map (· + u.length)
  | [], w, _ => by cases hi : idxOf? c w <;> simp [hi]
  | a :: u, w, h => by
    simp only [List.mem_cons, not_or] at h
    rw [List.cons_append, idxOf?, if_neg (Ne.symm h.1),
      idxOf?_append_of_not_mem_left c u w h.2]
    cases hi : idxOf? c w <;> simp [hi, Nat.add_assoc]

theorem idxOf?_append_self (c : Char) (u w : Str) (h : c ∉ u) :
    idxOf? c (u ++ c :: w) = some u.length := by
  rw [idxOf?_append_of_not_mem_left c u (c :: w) h]
  simp [idxOf?]

theorem lastIdxOf?_eq_none_iff (c : Char) (s : Str) :
    lastIdxOf? c s = none ↔ c ∉ s := by
  rw [lastIdxOf?, Option.map_eq_none', idxOf?_eq_none_iff, List.mem_reverse]

/-- Appending text free of the character does not move its last index. -/
theorem lastIdxOf?_append_of_not_mem_right (c : Char) (s t : Str) (h : c ∉ t) :
    lastIdxOf? c (s ++ t) = lastIdxOf? c s := by
  rw [lastIdxOf?, lastIdxOf?, List.reverse_append,
    idxOf?_append_of_not_mem_left c t.reverse s.reverse (by simpa using h)]
  cases hi : idxOf? c s.reverse with
  | none => simp
  | some j =>
    have hj : j < s.length := by
      have := idxOf?_lt_length c s.reverse j hi
      simpa using this
    simp only [Option.map_some']
    congr 1
    simp only [List.length_append, List.length_reverse]
    omega

/-- The cut at the position after the last occurrence, as
`splitDecorations` computes it, agrees with the reverse-scan description. -/
theorem take_si_spec (c : Char) (s : Str) :
    s.take (match lastIdxOf? c s with | some i => i + 1 | none => 0) =
      (s.reverse.dropWhile (fun a => a != c)).reverse ∧
    s.drop (match lastIdxOf? c s with | some i => i + 1 | none => 0) =
      (s.reverse.takeWhile (fun a => a != c)).reverse := by
  cases hl : lastIdxOf? c s with
  | none =>
    have hm : c ∉ s := (lastIdxOf?_eq_none_iff c s).1 hl
    have hm' : c ∉ s.reverse := by simpa using hm
    rw [takeWhile_ne_of_not_mem c s.reverse hm', dropWhile_ne_of_not_mem c s.reverse hm']
    simp
  | some i =>
    rw [lastIdxOf?] at hl
    cases hi : idxOf? c s.reverse with
    | none => rw [hi] at hl; simp at hl
    | some j =>
      rw [hi] at hl
      simp only [Option.map_some'] at hl
      have hj : j < s.length := by
        have := idxOf?_lt_length c s.reverse j hi
        simpa using this
      obtain ⟨ht, hd, _⟩ := idxOf?_some_spec c s.reverse j hi
      cases hl
      constructor
      · rw [hd, List.drop_reverse, List.reverse_reverse]
        congr 1
        show s.length - 1 - j + 1 = s.length - j
        omega
      · rw [ht, List.take_reverse, List.reverse_reverse]
        congr 1
        show s.length - 1 - j + 1 = s.length - j
        omega

end TPath

namespace TUrl

open TPath (sep)

/-- The scan-based split at the first occurrence agrees with the
index-based split of `splitDecorations`. -/
theorem breakAtChar_eq_idx (c : Char) (s : Str) :
    breakAtChar c s =
      (match TPath.idxOf? c s with
       | some i => (s.take i, some (s.drop (i + 1)))
       | none => (s, none)) := by
  cases hi : TPath.idxOf? c s with
  | none =>
    have hm : c ∉ s := (TPath.idxOf?_eq_none_iff c s).1 hi
    unfold breakAtChar
    rw [TPath.takeWhile_ne_of_not_mem c s hm, TPath.dropWhile_ne_of_not_mem c s hm]
  | some i =>
    obtain ⟨ht, hd, hl⟩ := TPath.idxOf?_some_spec c s i hi
    unfold breakAtChar
    rw [ht, hd, List.drop_eq_getElem_cons hl]

/-- The decoration split of url-tools equals its after-last-slash,
first-`'#'`, first-`'?'` description. -/
theorem splitDecorations_eq_spec (s : Str) :
    splitDecorations s = specSplitDecorations s := by
  obtain ⟨hpre, hrem⟩ := TPath.take_si_spec sep s
  unfold splitDecorations specSplitDecorations
  dsimp only
  rw [hpre, hrem, breakAtChar_eq_idx, breakAtChar_eq_idx]

/-- `splitDecorations` factors through the cut position and the
query/fragment stage. -/
theorem splitDecorations_decorStage (s : Str) :
    splitDecorations s =
      (s.take (siOf s) ++ (decorStage (s.drop (siOf s))).1,
       (decorStage (s.drop (siOf s))).2.1,
       (decorStage (s.drop (siOf s))).2.2) := rfl

theorem siOf_le_length (s : Str) : siOf s ≤ s.length := by
  unfold siOf
  cases hl : TPath.lastIdxOf? sep s with
  | none => simp
  | some i =>
    rw [TPath.lastIdxOf?] at hl
    cases hi : TPath.idxOf? sep s.reverse with
    | none => rw [hi] at hl; simp at hl
    | some j =>
      rw [hi] at hl
      simp only [Option.map_some'] at hl
      have hj : j < s.length := by
        have := TPath.idxOf?_lt_length sep s.reverse j hi
        simpa using this
      cases hl
      show s.length - 1 - j + 1 ≤ s.length
      omega

theorem siOf_append (s t : Str) (ht : sep ∉ t) : siOf (s ++ t) = siOf s := by
  unfold siOf
  rw [TPath.lastIdxOf?_append_of_not_mem_right sep s t ht]

theorem not_mem_append_cons {c x : Char} {g t : Str} (hg : c ∉ g) (hx : c ≠ x)
    (ht : c ∉ t) : c ∉ g ++ x :: t := by
  intro hm
  rcases List.mem_append.1 hm with h | h
  · exact hg h
  · rcases List.mem_cons.1 h with h | h
    · exact hx h
    · exact ht h

theorem drop_cons_after (g w : Str) (c : Char) :
    (g ++ c :: w).drop (g.length + 1) = w := by
  have he : g ++ c :: w = (g ++ [c]) ++ w := by simp
  have hl : (g ++ [c]).length = g.length + 1 := by simp
  rw [he, ← hl, List.drop_left]

/-- The query/fragment stage on a clean body followed by decoration
suffixes recovers exactly those pieces. -/
theorem decorStage_decorated (g : Str) (qo fo : Option Str)
    (hgq : '?' ∉ g) (hgh : '#' ∉ g)
    (hqo : ∀ t, qo = some t → '#' ∉ t) :
    decorStage (g ++ decorOf qo fo) = (g, qo, fo) := by
  have hq : TPath.idxOf? '?' g = none := (TPath.idxOf?_eq_none_iff '?' g).2 hgq
  have hh : TPath.idxOf? '#' g = none := (TPath.idxOf?_eq_none_iff '#' g).2 hgh
  cases qo with
  | none =>
    cases fo with
    | none =>
      show decorStage (g ++ ([] ++ [])) = (g, none, none)
      rw [List.nil_append, List.append_nil]
      unfold decorStage
      dsimp only
      rw [hh]
      dsimp only
      rw [hq]
    | some ft =>
      show decorStage (g ++ ([] ++ '#' :: ft)) = (g, none, some ft)
      rw [List.nil_append]
      unfold decorStage
      dsimp only
      rw [TPath.idxOf?_append_self '#' g ft hgh]
      dsimp only
      rw [List.take_left, drop_cons_after]
      rw [hq]
  | some qt =>
    have hqt : '#' ∉ qt := hqo qt rfl
    cases fo with
    | none =>
      show decorStage (g ++ ('?' :: qt ++ [])) = (g, some qt, none)
      rw [List.append_nil]
      have hh2 : TPath.idxOf? '#' (g ++ '?' :: qt) = none :=
        (TPath.idxOf?_eq_none_iff '#' _).2 (not_mem_append_cons hgh (by decide) hqt)
      unfold decorStage
      dsimp only
      rw [hh2]
      dsimp only
      rw [TPath.idxOf?_append_self '?' g qt hgq]
      dsimp only
      rw [List.take_left, drop_cons_after]
    | some ft =>
      show decorStage (g ++ ('?' :: qt ++ '#' :: ft)) = (g, some qt, some ft)
      have he : g ++ ('?' :: qt ++ '#' :: ft) = (g ++ '?' :: qt) ++ '#' :: ft := by
        simp
      rw [he]
      have hgq2 : '#' ∉ g ++ '?' :: qt := not_mem_append_cons hgh (by decide) hqt
      unfold decorStage
      dsimp only
      rw [TPath.idxOf?_append_self '#' (g ++ '?' :: qt) ft hgq2]
      dsimp only
      rw [List.take_left, drop_cons_after]
      rw [TPath.idxOf?_append_self '?' g qt hgq]
      dsimp only
      rw [List.take_left, drop_cons_after]

theorem decorStage_query_none (r0 : Str) (h : '?' ∉ r0) :
    (decorStage r0).2.1 = none := by
  unfold decorStage
  dsimp only
  cases hh : TPath.idxOf? '#' r0 with
  | none =>
    dsimp only
    rw [(TPath.idxOf?_eq_none_iff '?' r0).2 h]
  | some hIdx =>
    dsimp only
    have h2 : '?' ∉ r0.take hIdx := fun hm => h (List.take_subset _ _ hm)
    rw [(TPath.idxOf?_eq_none_iff '?' _).2 h2]

theorem decorStage_fragment_none (r0 : Str) (h : '#' ∉ r0) :
    (decorStage r0).2.2 = none := by
  unfold decorStage
  dsimp only
  rw [(TPath.idxOf?_eq_none_iff '#' r0).2 h]

theorem splitDecorations_query_none (s : Str) (h : '?' ∉ s) :
    (splitDecorations s).2.1 = none := by
  rw [splitDecorations_decorStage]
  exact decorStage_query_none _ (fun hm => h (List.drop_subset _ s hm))

theorem splitDecorations_fragment_none (s : Str) (h : '#' ∉ s) :
    (splitDecorations s).2.2 = none := by
  rw [splitDecorations_decorStage]
  exact decorStage_fragment_none _ (fun hm => h (List.drop_subset _ s hm))

/-- The decoration split of a clean body followed by query/fragment
suffixes free of `'/'` recovers exactly those pieces. -/
theorem splitDecorations_decorated (s : Str) (qo fo : Option Str)
    (hq : '?' ∉ s) (hh : '#' ∉ s)
    (hqo : ∀ t, qo = some t → sep ∉ t ∧ '#' ∉ t)
    (hfo : ∀ t, fo = some t → sep ∉ t) :
    splitDecorations (s ++ decorOf qo fo) = (s, qo, fo) := by
  have hsd : sep ∉ decorOf qo fo := by
    unfold decorOf
    intro hm
    rcases List.mem_append.1 hm with h1 | h1
    · cases hq1 : qo with
      | none => rw [hq1] at h1; simp at h1
      | some qt =>
        rw [hq1] at h1
        rcases List.mem_cons.1 h1 with h2 | h2
        · exact absurd h2 (by decide)
        · exact (hqo qt hq1).1 h2
    · cases hf1 : fo with
      | none => rw [hf1] at h1; simp at h1
      | some ft =>
        rw [hf1] at h1
        rcases List.mem_cons.1 h1 with h2 | h2
        · exact absurd h2 (by decide)
        · exact hfo ft hf1 h2
  have hle : siOf s ≤ s.length := siOf_le_length s
  rw [splitDecorations_decorStage, siOf_append s _ hsd,
    List.take_append_of_le_length hle, List.drop_append_of_le_length hle,
    decorStage_decorated (s.drop (siOf s)) qo fo
      (fun hm => hq (List.drop_subset _ s hm))
      (fun hm => hh (List.drop_subset _ s hm))
      (fun t ht => (hqo t ht).2)]
  rw [List.take_append_drop]

/-- `parsePath` when the split yields no query substring. -/
theorem parsePath_of_query_none (s : Str)
    (h : (splitDecorations s).2.1 = none) :
    parsePath s = Except.ok
      ⟨normalizePathname (splitDecorations s).1, none,
        (splitDecorations s).2.2⟩ := by
  unfold parsePath
  dsimp only
  rw [h]
  rfl

/-- `parsePath` when the split yields a query substring. -/
theorem parsePath_of_query_some (s t : Str)
    (h : (splitDecorations s).2.1 = some t) :
    parsePath s = (parseQuery t).map
      (fun q => ⟨normalizePathname (splitDecorations s).1, some q,
        (splitDecorations s).2.2⟩) := by
  unfold parsePath
  dsimp only
  rw [h]
  dsimp only
  cases hq : parseQuery t <;> rfl

/-- Injectivity of `Except.ok`, up to reduction of the sides. -/
theorem jok_inj {α : Type} {a b : α} (h : (Except.ok a : JsRes α) = Except.ok b) :
    a = b := by injection h

/-- Inversion of the `RootPathUrl` constructor: the stored parts come
from `parsePath`. -/
theorem mk_inv_root (s : Str) (u : Url) (h : mkRootPathUrl s = Except.ok u) :
    parsePath s = Except.ok u.parts := by
  unfold mkRootPathUrl at h
  cases hp : parsePath s with
  | error e =>
    rw [hp] at h
    have h' : (Except.error e : JsRes Url) = Except.ok u := h
    exact Except.noConfusion h'
  | ok parts =>
    rw [hp] at h
    have h' : ctorCheck UrlKind.root parts = Except.ok u := h
    unfold ctorCheck at h'
    dsimp only at h'
    by_cases ha : TPath.isAbsolute parts.pathname = true
    · rw [if_pos ha] at h'
      cases h'
      rfl
    · rw [if_neg ha] at h'
      exact Except.noConfusion h'

/-- On a directory path `#requireFilename` throws its error. -/
theorem requireFilenameU_dir (u : Url) (h : isDirectoryU u = true) (what : Str) :
    requireFilenameU what u = Except.error (JsErr.error (requireMsg what u)) := by
  unfold requireFilenameU filenameU filenameStrU
  rw [if_pos h]
  rfl

/-- The `#requireFilename` error message contains `"directory"`. -/
theorem dir_msg_infix (what : Str) (u : Url) :
    (strL "directory") <:+: requireMsg what u := by
  refine ⟨strL "Can't " ++ what ++ strL ", ",
    strL " path has no filename: " ++ toStringU u, ?_⟩
  unfold requireMsg
  have hsplit : strL "directory path has no filename: " =
      strL "directory" ++ strL " path has no filename: " := by decide
  rw [hsplit]
  simp [List.append_assoc]

theorem filenameU_dir (u : Url) (h : isDirectoryU u = true) :
    filenameU u = Except.ok none := by
  unfold filenameU filenameStrU
  rw [if_pos h]

theorem replaceFilenameU_dir (u : Url) (h : isDirectoryU u = true) (nf : Str) :
    IsDirErr (replaceFilenameU u nf) := by
  refine ⟨requireMsg (strL "replaceFilename") u, ?_, dir_msg_infix _ u⟩
  unfold replaceFilenameU
  rw [requireFilenameU_dir u h]
  rfl

theorem replaceStemU_dir (u : Url) (h : isDirectoryU u = true) (ns : Str) :
    IsDirErr (replaceStemU u ns) := by
  refine ⟨requireMsg (strL "replaceStem") u, ?_, dir_msg_infix _ u⟩
  unfold replaceStemU
  rw [requireFilenameU_dir u h]
  rfl

theorem replaceExtensionU_dir (u : Url) (h : isDirectoryU u = true) (ne : Str) :
    IsDirErr (replaceExtensionU u ne) := by
  refine ⟨requireMsg (strL "replaceExtension") u, ?_, dir_msg_infix _ u⟩
  unfold replaceExtensionU
  rw [requireFilenameU_dir u h]
  rfl

theorem transformFilenameU_dir (u : Url) (h : isDirectoryU u = true)
    (fn : Str → Str) : IsDirErr (transformFilenameU u fn) := by
  refine ⟨requireMsg (strL "transformFilename") u, ?_, dir_msg_infix _ u⟩
  unfold transformFilenameU
  rw [requireFilenameU_dir u h]
  rfl

/-- Inversion of the `RelativePathUrl` constructor. -/
theorem mk_inv_rel (s : Str) (u : Url) (h : mkRelativePathUrl s = Except.ok u) :
    parsePath s = Except.ok u.parts := by
  unfold mkRelativePathUrl at h
  cases hp : parsePath s with
  | error e =>
    rw [hp] at h
    have h' : (Except.error e : JsRes Url) = Except.ok u := h
    exact Except.noConfusion h'
  | ok parts =>
    rw [hp] at h
    have h' : ctorCheck UrlKind.rel parts = Except.ok u := h
    unfold ctorCheck at h'
    dsimp only at h'
    by_cases ha : TPath.isAbsolute parts.pathname = true
    · rw [if_pos ha] at h'
      exact Except.noConfusion h'
    · rw [if_neg ha] at h'
      cases h'
      rfl

theorem encodeURIComponent_cons (c : Char) (s : Str) :
    encodeURIComponent (c :: s) =
      (if componentUnescaped c then [c] else pctEncodeChar c) ++
        encodeURIComponent s := rfl

theorem encodeURIStr_cons (c : Char) (s : Str) :
    encodeURIStr (c :: s) =
      (if componentUnescaped c || uriExtraUnescaped c then [c]
        else pctEncodeChar c) ++ encodeURIStr s := rfl

theorem replaceQueryHash_cons (c : Char) (s : Str) :
    replaceQueryHash (c :: s) =
      (if c = '?' || c = '#' then encodeURIComponent [c] else [c]) ++
        replaceQueryHash s := rfl

theorem replaceQueryHash_cons_keep (c : Char) (s : Str)
    (h : (c = '?' || c = '#') = false) :
    replaceQueryHash (c :: s) = c :: replaceQueryHash s := by
  rw [replaceQueryHash_cons, h]
  rfl

/-- The `%25XY` collapse step of `unDoubleEncode` on a hex escape. -/
theorem unDoubleEncode_esc (h1 h2 : Char) (r : Str)
    (hx1 : isHexDigit h1 = true) (hx2 : isHexDigit h2 = true) :
    unDoubleEncode ('%' :: '2' :: '5' :: h1 :: h2 :: r) =
      '%' :: h1 :: h2 :: unDoubleEncode r := by
  show (if isHexDigit h1 && isHexDigit h2
    then '%' :: h1 :: h2 :: unDoubleEncode r
    else '%' :: unDoubleEncode ('2' :: '5' :: h1 :: h2 :: r)) =
      '%' :: h1 :: h2 :: unDoubleEncode r
  rw [hx1, hx2]
  rfl

theorem unDoubleEncode_cons_ne (c : Char) (r : Str) (h : c ≠ '%') :
    unDoubleEncode (c :: r) = c :: unDoubleEncode r := by
  rw [unDoubleEncode.eq_def]
  split
  · rename_i heq
    injection heq with hc _
    exact absurd hc h
  · rename_i x0 c2 rest2 hno heq
    injection heq with hc hr
    rw [hc, hr]
  · rename_i heq
    exact List.noConfusion heq

/-- Keeping an already-encoded component string: `encodeComponent` is the
identity on it (no double-encoding). -/
theorem encodeComponent_encOk (e : Str) (h : EncOk componentUnescaped e) :
    encodeComponent e = e := by
  unfold encodeComponent
  induction h with
  | nil => rfl
  | esc hx1 hx2 kh1 kh2 hrest ih =>
    rename_i h1 h2 rest
    rw [encodeURIComponent_cons, encodeURIComponent_cons, encodeURIComponent_cons]
    rw [if_neg (by decide), if_pos kh1, if_pos kh2]
    rw [show pctEncodeChar '%' = ['%', '2', '5'] from by decide]
    simp only [List.cons_append, List.nil_append, List.singleton_append]
    rw [unDoubleEncode_esc h1 h2 _ hx1 hx2, ih]
  | chr kc hnp hrest ih =>
    rename_i c rest
    rw [encodeURIComponent_cons, if_pos kc]
    simp only [List.singleton_append]
    rw [unDoubleEncode_cons_ne c _ hnp, ih]

theorem pathPlain_keep {c : Char} (h : pathPlain c = true) :
    (componentUnescaped c || uriExtraUnescaped c) = true := by
  unfold pathPlain at h
  simp only [Bool.or_eq_true, Bool.and_eq_true] at h ⊢
  rcases h with h | h
  · exact Or.inl h
  · exact Or.inr h.1

theorem pathPlain_not_qh {c : Char} (h : pathPlain c = true) :
    (c = '?' || c = '#') = false := by
  by_cases h1 : c = '?'
  · subst h1
    exact absurd h (by decide)
  · by_cases h2 : c = '#'
    · subst h2
      exact absurd h (by decide)
    · simp [h1, h2]

/-- Keeping an already-encoded pathname string: `encodePathname` is the
identity on it (no double-encoding). -/
theorem encodePathname_encOk (e : Str) (h : EncOk pathPlain e) :
    encodePathname e = e := by
  unfold encodePathname
  induction h with
  | nil => rfl
  | esc hx1 hx2 kh1 kh2 hrest ih =>
    rename_i h1 h2 rest
    rw [encodeURIStr_cons, encodeURIStr_cons, encodeURIStr_cons]
    rw [if_neg (by decide), if_pos (pathPlain_keep kh1), if_pos (pathPlain_keep kh2)]
    rw [show pctEncodeChar '%' = ['%', '2', '5'] from by decide]
    simp only [List.cons_append, List.nil_append, List.singleton_append]
    rw [replaceQueryHash_cons_keep _ _ (by decide),
      replaceQueryHash_cons_keep _ _ (by decide),
      replaceQueryHash_cons_keep _ _ (by decide),
      replaceQueryHash_cons_keep _ _ (pathPlain_not_qh kh1),
      replaceQueryHash_cons_keep _ _ (pathPlain_not_qh kh2)]
    rw [unDoubleEncode_esc h1 h2 _ hx1 hx2, ih]
  | chr kc hnp hrest ih =>
    rename_i c rest
    rw [encodeURIStr_cons, if_pos (pathPlain_keep kc)]
    simp only [List.singleton_append]
    rw [replaceQueryHash_cons_keep _ _ (pathPlain_not_qh kc)]
    rw [unDoubleEncode_cons_ne c _ hnp, ih]

/-- A string of kept characters is trivially already-encoded. -/
theorem encOk_of_plain {keep : Char → Bool} (hkp : keep '%' = false) :
    ∀ s : Str, (∀ c ∈ s, keep c = true) → EncOk keep s
  | [], _ => EncOk.nil
  | c :: rest, h => by
    have kc := h c (List.mem_cons_self c rest)
    refine EncOk.chr kc (fun he => ?_)
      (encOk_of_plain hkp rest fun d hd => h d (List.mem_cons_of_mem c hd))
    rw [he, hkp] at kc
    exact Bool.noConfusion kc

theorem encodeComponent_plain (s : Str) (h : plainStr s) :
    encodeComponent s = s :=
  encodeComponent_encOk s (encOk_of_plain (by decide) s h)

theorem encodePathname_plain (s : Str) (h : ∀ c ∈ s, pathPlain c = true) :
    encodePathname s = s :=
  encodePathname_encOk s (encOk_of_plain (by decide) s h)

/-- A character class excludes a character from plain strings. -/
theorem plain_not_mem {c0 : Char} (hc : componentUnescaped c0 = false)
    {s : Str} (h : plainStr s) : c0 ∉ s := fun hm => by
  have h2 := h c0 hm
  rw [hc] at h2
  exact Bool.noConfusion h2

theorem pctTokens_cons_ne (c : Char) (r : Str) (h : c ≠ '%') :
    pctTokens (c :: r) = (pctTokens r).map (fun ts => Sum.inl c :: ts) := by
  rw [pctTokens.eq_def]
  split
  · rename_i heq
    exact List.noConfusion heq
  · rename_i heq
    injection heq with hc _
    exact absurd hc h
  · rename_i heq
    injection heq with hc _
    exact absurd hc h
  · rename_i heq
    injection heq with hc hr
    rw [hc, hr]

theorem pctTokens_no_pct : ∀ s : Str, '%' ∉ s →
    pctTokens s = some (s.map Sum.inl)
  | [], _ => rfl
  | c :: rest, h => by
    simp only [List.mem_cons, not_or] at h
    rw [pctTokens_cons_ne c rest (Ne.symm h.1),
      pctTokens_no_pct rest h.2]
    rfl

theorem decodeTokens_map_inl : ∀ s : Str, decodeTokens (s.map Sum.inl) = some s
  | [] => rfl
  | c :: rest => by
    show (decodeTokens (rest.map Sum.inl)).map (fun cs => c :: cs) = some (c :: rest)
    rw [decodeTokens_map_inl rest]
    rfl

/-- `decodeURIComponent` is the identity on strings without `'%'`. -/
theorem decodeURIComponent_no_pct (s : Str) (h : '%' ∉ s) :
    decodeURIComponent s = Except.ok s := by
  unfold decodeURIComponent
  rw [pctTokens_no_pct s h]
  dsimp only
  rw [decodeTokens_map_inl s]

theorem qlookup_not_mem (k : Str) : ∀ acc : Query, (∀ e ∈ acc, e.1 ≠ k) →
    qlookup k acc = none
  | [], _ => rfl
  | (k2, v) :: rest, h => by
    show (if k2 = k then some v else qlookup k rest) = none
    rw [if_neg (h (k2, v) (List.mem_cons_self _ _)),
      qlookup_not_mem k rest (fun e he => h e (List.mem_cons_of_mem _ he))]

theorem qset_append_new (k : Str) (v : QVal) : ∀ acc : Query,
    (∀ e ∈ acc, e.1 ≠ k) → qset k v acc = acc ++ [(k, v)]
  | [], _ => rfl
  | (k2, v2) :: rest, h => by
    show (if k2 = k then (k, v) :: rest else (k2, v2) :: qset k v rest) =
      ((k2, v2) :: rest) ++ [(k, v)]
    rw [if_neg (h (k2, v2) (List.mem_cons_self _ _)),
      qset_append_new k v rest (fun e he => h e (List.mem_cons_of_mem _ he))]
    rfl

theorem qlookup_append_last (k : Str) (v : QVal) : ∀ acc : Query,
    (∀ e ∈ acc, e.1 ≠ k) → qlookup k (acc ++ [(k, v)]) = some v
  | [], _ => by
    show (if k = k then some v else qlookup k []) = some v
    rw [if_pos rfl]
  | (k2, v2) :: rest, h => by
    show (if k2 = k then some v2 else qlookup k (rest ++ [(k, v)])) = some v
    rw [if_neg (h (k2, v2) (List.mem_cons_self _ _)),
      qlookup_append_last k v rest (fun e he => h e (List.mem_cons_of_mem _ he))]

theorem qset_append_last (k : Str) (v w : QVal) : ∀ acc : Query,
    (∀ e ∈ acc, e.1 ≠ k) → qset k w (acc ++ [(k, v)]) = acc ++ [(k, w)]
  | [], _ => by
    show (if k = k then (k, w) :: [] else (k, v) :: qset k w []) = [(k, w)]
    rw [if_pos rfl]
  | (k2, v2) :: rest, h => by
    show (if k2 = k then (k, w) :: (rest ++ [(k, v)])
      else (k2, v2) :: qset k w (rest ++ [(k, v)])) = ((k2, v2) :: rest) ++ [(k, w)]
    rw [if_neg (h (k2, v2) (List.mem_cons_self _ _)),
      qset_append_last k v w rest (fun e he => h e (List.mem_cons_of_mem _ he))]
    rfl

/-- One parsed `key=value` pair over safe characters. -/
theorem parseQueryPair_plain (acc : Query) (k v : Str)
    (hk : plainStr k) (hv : plainStr v) :
    parseQueryPair acc (k ++ '=' :: v) = Except.ok
      (match qlookup k acc with
        | some prev =>
          if qvalTruthy prev then
            qset k (match prev with
              | QVal.one p => QVal.many [p, v]
              | QVal.many l => QVal.many (l ++ [v])) acc
          else qset k (QVal.one v) acc
        | none => qset k (QVal.one v) acc) := by
  unfold parseQueryPair
  rw [if_neg (show ¬(k ++ '=' :: v = []) by simp)]
  have hsp : TPath.splitOnChar '=' (k ++ '=' :: v) = [k, v] := by
    rw [TPath.splitOnChar_append_cons v (plain_not_mem (by decide) hk),
      TPath.splitOnChar_single (plain_not_mem (by decide) hv)]
  dsimp only
  rw [hsp]
  simp only [List.headD_cons, List.drop_succ_cons, List.drop_zero]
  rw [decodeURIComponent_no_pct k (plain_not_mem (by decide) hk),
    decodeURIComponent_no_pct v (plain_not_mem (by decide) hv)]
  rfl

/-- Folding the remaining array values onto an array-valued last entry. -/
theorem fold_many (k : Str) (hk : plainStr k) (acc : Query)
    (hacc : ∀ e ∈ acc, e.1 ≠ k) :
    ∀ (vs : List Str) (l : List Str), (∀ v ∈ vs, plainStr v) →
    List.foldlM parseQueryPair (acc ++ [(k, QVal.many l)])
        (vs.map (fun v => k ++ '=' :: v)) =
      Except.ok (acc ++ [(k, QVal.many (l ++ vs))])
  | [], l, _ => by
    simp only [List.map_nil, List.foldlM_nil, List.append_nil]
    rfl
  | v :: vs, l, hvs => by
    rw [List.map_cons, List.foldlM_cons,
      parseQueryPair_plain _ k v hk (hvs v (List.mem_cons_self _ _)),
      qlookup_append_last k _ acc hacc]
    dsimp only
    rw [if_pos (show qvalTruthy (QVal.many l) = true from rfl)]
    rw [qset_append_last k _ _ acc hacc]
    have h2 := fold_many k hk acc hacc vs (l ++ [v])
      (fun w hw => hvs w (List.mem_cons_of_mem _ hw))
    rw [show (l ++ [v]) ++ vs = l ++ v :: vs by simp] at h2
    exact h2

/-- Folding the pair strings of one entry onto an accumulator that does
not yet contain its key. -/
theorem entry_fold (k : Str) (v : QVal) (acc : Query)
    (hk : plainStr k) (hv : qvalOk v) (hacc : ∀ e ∈ acc, e.1 ≠ k) :
    List.foldlM parseQueryPair acc (pairStrs k v) =
      Except.ok (acc ++ [(k, v)]) := by
  cases v with
  | one v0 =>
    show List.foldlM parseQueryPair acc [k ++ '=' :: v0] = _
    rw [List.foldlM_cons, parseQueryPair_plain acc k v0 hk hv,
      qlookup_not_mem k acc hacc, qset_append_new k _ acc hacc]
    rfl
  | many vs =>
    obtain ⟨hlen, hhead, hplain⟩ := hv
    cases vs with
    | nil => simp at hlen
    | cons v1 vs' =>
      cases vs' with
      | nil => simp at hlen
      | cons v2 rest =>
        show List.foldlM parseQueryPair acc
          ((v1 :: v2 :: rest).map (fun v => k ++ '=' :: v)) = _
        rw [List.map_cons, List.foldlM_cons,
          parseQueryPair_plain acc k v1 hk (hplain v1 (List.mem_cons_self _ _)),
          qlookup_not_mem k acc hacc, qset_append_new k _ acc hacc]
        have hv1 : qvalTruthy (QVal.one v1) = true := by
          cases hv1c : v1 with
          | nil =>
            rw [hv1c] at hhead
            simp at hhead
          | cons a as => rfl
        have h2 : List.foldlM parseQueryPair (acc ++ [(k, QVal.one v1)])
            ((v2 :: rest).map (fun v => k ++ '=' :: v)) =
            Except.ok (acc ++ [(k, QVal.many (v1 :: v2 :: rest))]) := by
          rw [List.map_cons, List.foldlM_cons,
            parseQueryPair_plain _ k v2 hk
              (hplain v2 (List.mem_cons_of_mem _ (List.mem_cons_self _ _))),
            qlookup_append_last k _ acc hacc]
          dsimp only
          rw [if_pos hv1]
          rw [qset_append_last k _ _ acc hacc]
          have h3 := fold_many k hk acc hacc rest [v1, v2]
            (fun w hw => hplain w
              (List.mem_cons_of_mem _ (List.mem_cons_of_mem _ hw)))
          rw [show ([v1, v2] ++ rest : List Str) = v1 :: v2 :: rest from rfl] at h3
          exact h3
        exact h2

/-- Folding all entries of a well-formed query map. -/
theorem query_fold : ∀ (q : Query) (acc : Query),
    (∀ e ∈ q, plainStr e.1 ∧ qvalOk e.2) →
    q.Pairwise (fun a b => a.1 ≠ b.1) →
    (∀ e ∈ acc, ∀ e2 ∈ q, e.1 ≠ e2.1) →
    List.foldlM parseQueryPair acc
        ((q.map (fun e => pairStrs e.1 e.2)).foldr (· ++ ·) []) =
      Except.ok (acc ++ q)
  | [], acc, _, _, _ => by
    simp only [List.map_nil, List.foldr_nil, List.foldlM_nil, List.append_nil]
    rfl
  | (k, v) :: q', acc, hwf, hpw, hdisj => by
    rw [List.map_cons, List.foldr_cons, List.foldlM_append,
      entry_fold k v acc (hwf (k, v) (List.mem_cons_self _ _)).1
        (hwf (k, v) (List.mem_cons_self _ _)).2
        (fun e he => hdisj e he (k, v) (List.mem_cons_self _ _))]
    have hpw' := (List.pairwise_cons.1 hpw).1
    have h2 := query_fold q' (acc ++ [(k, v)])
      (fun e he => hwf e (List.mem_cons_of_mem _ he))
      (List.pairwise_cons.1 hpw).2
      (by
        intro e he e2 he2
        rcases List.mem_append.1 he with h | h
        · exact hdisj e h e2 (List.mem_cons_of_mem _ he2)
        · rw [List.mem_singleton.1 h]
          exact hpw' e2 he2)
    rw [show (acc ++ [(k, v)]) ++ q' = acc ++ (k, v) :: q' by simp] at h2
    exact h2

theorem mem_joinChar {cj c0 : Char} : ∀ {L : List Str},
    c0 ∈ TPath.joinChar cj L → c0 = cj ∨ ∃ t ∈ L, c0 ∈ t
  | [], h => by simp [TPath.joinChar] at h
  | [s], h => Or.inr ⟨s, List.mem_cons_self _ _, h⟩
  | s :: t :: ts, h => by
    rw [TPath.joinChar_cons cj s (by simp)] at h
    rcases List.mem_append.1 h with h | h
    · exact Or.inr ⟨s, List.mem_cons_self _ _, h⟩
    · rcases List.mem_cons.1 h with h | h
      · exact Or.inl h
      · rcases mem_joinChar h with h | ⟨t2, ht2, hc⟩
        · exact Or.inl h
        · exact Or.inr ⟨t2, List.mem_cons_of_mem _ ht2, hc⟩

/-- Characters of the raw pair strings: safe characters or `'='`. -/
theorem pairs_chars : ∀ (q : Query), (∀ e ∈ q, plainStr e.1 ∧ qvalOk e.2) →
    ∀ p ∈ (q.map (fun e => pairStrs e.1 e.2)).foldr (· ++ ·) [],
    ∀ c ∈ p, componentUnescaped c = true ∨ c = '='
  | [], _, p, hp => by simp at hp
  | (k, v) :: q', hwf, p, hp => by
    rw [List.map_cons, List.foldr_cons] at hp
    rcases List.mem_append.1 hp with h | h
    · obtain ⟨hk, hv⟩ := hwf (k, v) (List.mem_cons_self _ _)
      cases v with
      | one v0 =>
        rw [show pairStrs k (QVal.one v0) = [k ++ '=' :: v0] from rfl,
          List.mem_singleton] at h
        subst h
        intro c hc
        rcases List.mem_append.1 hc with h | h
        · exact Or.inl (hk c h)
        · rcases List.mem_cons.1 h with h | h
          · exact Or.inr h
          · exact Or.inl (hv c h)
      | many vs =>
        rw [show pairStrs k (QVal.many vs) =
            vs.map (fun v => k ++ '=' :: v) from rfl, List.mem_map] at h
        obtain ⟨v0, hv0, rfl⟩ := h
        obtain ⟨_, _, hpl⟩ := hv
        intro c hc
        rcases List.mem_append.1 hc with h | h
        · exact Or.inl (hk c h)
        · rcases List.mem_cons.1 h with h | h
          · exact Or.inr h
          · exact Or.inl (hpl v0 hv0 c h)
    · exact pairs_chars q' (fun e he => hwf e (List.mem_cons_of_mem _ he)) p h

/-- A character that is neither safe nor `'='` nor `'&'` does not occur
in a raw query string. -/
theorem rawQueryStr_not_mem (c0 : Char) (hc : componentUnescaped c0 = false)
    (h1 : c0 ≠ '=') (h2 : c0 ≠ '&') (q : Query)
    (hwf : ∀ e ∈ q, plainStr e.1 ∧ qvalOk e.2) : c0 ∉ rawQueryStr q := by
  intro hm
  rcases mem_joinChar hm with h | ⟨t, ht, hc2⟩
  · exact h2 h
  · rcases pairs_chars q hwf t ht c0 hc2 with h | h
    · rw [hc] at h
      exact Bool.noConfusion h
    · exact h1 h

theorem pairStrs_ne_nil (k : Str) (v : QVal) (hv : qvalOk v) :
    pairStrs k v ≠ [] := by
  cases v with
  | one v0 => simp [pairStrs]
  | many vs =>
    obtain ⟨hlen, _, _⟩ := hv
    cases vs with
    | nil => simp at hlen
    | cons a as => simp [pairStrs]

/-- Parsing the raw query string of a well-formed query map recovers the
map, keys in their original order. -/
theorem parseQuery_rawQueryStr (q : Query) (hq : queryOk q) :
    parseQuery (rawQueryStr q) = Except.ok q := by
  obtain ⟨hpw, hwf⟩ := hq
  cases q with
  | nil => rfl
  | cons e q' =>
    have hstrip : ¬((rawQueryStr (e :: q')).take 1 = ['?']) := by
      intro he
      have hm : '?' ∈ rawQueryStr (e :: q') :=
        List.take_subset _ _ (by rw [he]; exact List.mem_singleton.2 rfl)
      exact rawQueryStr_not_mem '?' (by decide) (by decide) (by decide)
        (e :: q') hwf hm
    have hP : (((e :: q').map (fun e => pairStrs e.1 e.2)).foldr (· ++ ·) [])
        ≠ [] := by
      rw [List.map_cons, List.foldr_cons]
      exact List.append_ne_nil_of_left_ne_nil
        (pairStrs_ne_nil e.1 e.2 (hwf e (List.mem_cons_self _ _)).2) _
    have hnoamp : ∀ t ∈ ((e :: q').map (fun e => pairStrs e.1 e.2)).foldr
        (· ++ ·) [], '&' ∉ t := by
      intro t ht hm
      rcases pairs_chars (e :: q') hwf t ht '&' hm with h | h
      · exact Bool.noConfusion h
      · exact absurd h (by decide)
    unfold parseQuery
    dsimp only
    rw [if_neg hstrip]
    rw [show rawQueryStr (e :: q') = TPath.joinChar '&'
      (((e :: q').map (fun e => pairStrs e.1 e.2)).foldr (· ++ ·) []) from rfl]
    rw [TPath.splitOnChar_joinChar hP hnoamp]
    have h2 := query_fold (e :: q') [] hwf hpw
      (fun e2 he2 => absurd he2 (List.not_mem_nil e2))
    rw [List.nil_append] at h2
    exact h2

/-- Rendering the expanded pairs of a well-formed query map gives the
raw pair strings (the encoders are the identity on safe characters). -/
theorem pairs_render : ∀ (q : Query), (∀ e ∈ q, plainStr e.1 ∧ qvalOk e.2) →
    (((q.map (fun e => qvalExpand e.1 e.2)).foldr (· ++ ·) []).map
      (fun e => encodeComponent e.1 ++ '=' :: encodeComponent e.2)) =
    (q.map (fun e => pairStrs e.1 e.2)).foldr (· ++ ·) []
  | [], _ => rfl
  | (k, v) :: q', hwf => by
    rw [List.map_cons, List.map_cons, List.foldr_cons, List.foldr_cons,
      List.map_append,
      pairs_render q' (fun e he => hwf e (List.mem_cons_of_mem _ he))]
    congr 1
    obtain ⟨hk, hv⟩ := hwf (k, v) (List.mem_cons_self _ _)
    cases v with
    | one v0 =>
      rw [show qvalExpand k (QVal.one v0) = [(k, v0)] from rfl,
        show pairStrs k (QVal.one v0) = [k ++ '=' :: v0] from rfl]
      rw [List.map_singleton]
      rw [encodeComponent_plain k hk, encodeComponent_plain v0 hv]
    | many vs =>
      rw [show qvalExpand k (QVal.many vs) = vs.map (fun x => (k, x)) from rfl,
        show pairStrs k (QVal.many vs) = vs.map (fun v => k ++ '=' :: v) from rfl,
        List.map_map]
      obtain ⟨_, _, hpl⟩ := hv
      refine List.map_congr_left ?_
      intro v0 hv0
      show encodeComponent k ++ '=' :: encodeComponent v0 = k ++ '=' :: v0
      rw [encodeComponent_plain k hk, encodeComponent_plain v0 (hpl v0 hv0)]

theorem queryToString_plain (q : Query) (hq : queryOk q) :
    queryToString (some q) = '?' :: rawQueryStr q := by
  unfold queryToString rawQueryStr
  dsimp only
  rw [pairs_render q hq.2]

/-- `partsToString` on well-formed parts is the raw pathname followed by
the raw decorations. -/
theorem partsToString_decorated (p : UrlParts) (hp : partsOk p) :
    partsToString p =
      p.pathname ++ decorOf (p.query.map rawQueryStr) p.fragment := by
  obtain ⟨⟨hpc, hpn⟩, hq, hf⟩ := hp
  unfold partsToString decorOf
  rw [encodePathname_plain p.pathname hpc, List.append_assoc]
  congr 1
  congr 1
  · cases hq2 : p.query with
    | none => rfl
    | some q0 =>
      have hq0 : queryOk q0 := by rw [hq2] at hq; exact hq
      rw [queryToString_plain q0 hq0]
      rfl
  · cases hf2 : p.fragment with
    | none => rfl
    | some f0 =>
      have hf0 : plainStr f0 := by rw [hf2] at hf; exact hf
      show '#' :: encodeComponent f0 = '#' :: f0
      rw [encodeComponent_plain f0 hf0]

/-- The restricted parse/build round trip: parsing the serialization of
well-formed parts recovers the parts. -/
theorem parsePath_partsToString (p : UrlParts) (hp : partsOk p) :
    parsePath (partsToString p) = Except.ok p := by
  obtain ⟨pn, pq, pf⟩ := p
  obtain ⟨⟨hpc, hpn⟩, hq, hf⟩ := hp
  dsimp only at hpc hpn hq hf
  rw [partsToString_decorated ⟨pn, pq, pf⟩ ⟨⟨hpc, hpn⟩, hq, hf⟩]
  dsimp only
  have hq' : '?' ∉ pn := fun hm => by
    have h2 := hpc '?' hm
    exact absurd h2 (by decide)
  have hh' : '#' ∉ pn := fun hm => by
    have h2 := hpc '#' hm
    exact absurd h2 (by decide)
  have hsd := splitDecorations_decorated pn ((pq.map rawQueryStr)) pf hq' hh'
    (by
      intro t ht
      rcases Option.map_eq_some'.1 ht with ⟨q0, hq0, rfl⟩
      have hwf : queryOk q0 := by rw [hq0] at hq; exact hq
      exact ⟨rawQueryStr_not_mem sep (by decide) (by decide) (by decide) q0 hwf.2,
        rawQueryStr_not_mem '#' (by decide) (by decide) (by decide) q0 hwf.2⟩)
    (by
      intro t ht
      have hf0 : plainStr t := by rw [ht] at hf; exact hf
      exact plain_not_mem (by decide) hf0)
  cases pq with
  | none =>
    simp only [Option.map_none'] at hsd ⊢
    rw [parsePath_of_query_none _ (by rw [hsd]), hsd]
    dsimp only
    rw [hpn]
  | some q0 =>
    simp only [Option.map_some'] at hsd ⊢
    have hwf : queryOk q0 := hq
    rw [parsePath_of_query_some _ (rawQueryStr q0) (by rw [hsd]), hsd]
    dsimp only
    rw [parseQuery_rawQueryStr q0 hwf, hpn]
    rfl

end TUrl

section Sanity

example : TPath.normalize (strL "/project//src/../demos/") = strL "/project/demos" := by decide
example : TPath.normalize (strL "") = strL "." := by decide
example : TPath.normalize (strL "./foo/../") = strL "." := by decide
example : TPath.normalize (strL "./foo/../bar/./baz.txt/") = strL "bar/baz.txt" := by decide
example : TPath.normalize (strL "/..") = strL "/.." := by decide
example : TPath.absolutePathNew (strL "/..") = some (strL "/..") := by decide
example : TPath.relative (strL "/a/b") (strL "/a/c/d") = strL "../c/d" := by decide
example : TPath.resolveP [strL "/foo/bar", strL "demo1/src", strL "/etc/config", strL "index.ts"]
    = strL "/etc/config/index.ts" := by decide
example : TPath.dirname (strL "/a/b/c") = strL "/a/b" := by decide
example : TPath.dirname (strL "a") = strL "." := by decide
example : TPath.basename (strL "/a/b.txt") = strL "b.txt" := by decide
example : TPath.extname (strL ".gitignore") = strL "" := by decide
example : TPath.extname (strL ".env.local") = strL ".local" := by decide

example : TUrl.parsePath (strL "/a?b=c/d#f")
    = Except.ok ⟨strL "/a?b=c/d", none, some (strL "f")⟩ := by decide
example : TUrl.parsePath (strL "/a#f/g")
    = Except.ok ⟨strL "/a#f/g", none, none⟩ := by decide
example : TUrl.parsePath (strL "/a?")
    = Except.ok ⟨strL "/a", some [], none⟩ := by decide
example : TUrl.parsePath (strL "/a#")
    = Except.ok ⟨strL "/a", none, some []⟩ := by decide
example : TUrl.parsePath (strL "/a?a=1&b=x&b=y#frag")
    = Except.ok ⟨strL "/a",
        some [(strL "a", TUrl.QVal.one (strL "1")),
              (strL "b", TUrl.QVal.many [strL "x", strL "y"])],
        some (strL "frag")⟩ := by decide
example : TUrl.decodeURIComponent (strL "%41b") = Except.ok (strL "Ab") := by decide
example : TUrl.decodeURIComponent (strL "a%") = Except.error TUrl.JsErr.uriError := by
  decide
example : TUrl.encodeComponent (strL "%41") = strL "%41" := by decide
example : TUrl.encodeComponent (strL "a b") = strL "a%20b" := by decide
example : TUrl.encodePathname (strL "a#b") = strL "a%23b" := by decide
example : TUrl.encodePathname (strL "/a b/c") = strL "/a%20b/c" := by decide
example : TUrl.queryToString (some [(strL "b", TUrl.QVal.one (strL "1")),
    (strL "a", TUrl.QVal.one (strL "2"))]) = strL "?b=1&a=2" := by decide
example : TUrl.queryToString (some []) = strL "?" := by decide
example : TUrl.queryToString none = strL "" := by decide
example : (TUrl.mkRootPathUrl (strL "/foo/bar/")).map TUrl.isDirectoryU
    = Except.ok true := by decide
example :
    (TUrl.mkRootPathUrl (strL "/foo/bar/")).bind
      (fun u => TUrl.replaceExtensionU u (strL ".jpg"))
    = Except.error (TUrl.JsErr.error
        (strL "Can't replaceExtension, directory path has no filename: /foo/bar/")) := by
  decide
example : (TUrl.mkRelativePathUrl (strL "foo//bar")).map TUrl.toStringU
    = Except.ok (strL "foo/bar") := by decide

end Sanity

section Claims12

/-- C1 (counterexample): the `AbsolutePath` constructor accepts `'/..'`
and yields exactly the path string `'/..'`, an absolute path whose
segment sequence is the single segment `'..'` — contradicting the claim
that a normalized absolute path never contains a `'..'` segment. -/
theorem c1_absolute_dotdot_counterexample :
    TPath.absolutePathNew (strL "/..") = some (strL "/..") ∧
    TPath.isAbsolute (strL "/..") = true ∧
    TPath.segmentsOf (strL "/..") = [TPath.dd] := by decide

/-- C1 (amended): for every string accepted by the `AbsolutePath` or
`RelativePath` constructor, and for the result of every path operation
(join, resolve, parent, replaceParent, replaceFilename), the stored path
is either the relative sentinel `'.'` or its segment sequence contains
no empty and no `'.'` segment and contains `'..'` only as part of a
leading run at the front of the sequence.  (For absolute paths that
leading `'..'` run sits directly after the root and is preserved, not
resolved away.) -/
theorem c1_segment_invariant :
    (∀ s p, TPath.absolutePathNew s = some p → TPath.PathInv p) ∧
    (∀ s p, TPath.relativePathNew s = some p → TPath.PathInv p) ∧
    (∀ p args, TPath.PathInv (TPath.absJoin p args)) ∧
    (∀ p args, TPath.PathInv (TPath.relJoin p args)) ∧
    (∀ p args, TPath.PathInv (TPath.absResolve p args)) ∧
    (∀ p, TPath.PathInv (TPath.absParent p)) ∧
    (∀ p, TPath.PathInv (TPath.relParent p)) ∧
    (∀ p np, TPath.PathInv (TPath.absReplaceParent p np)) ∧
    (∀ p np, TPath.PathInv (TPath.relReplaceParent p np)) ∧
    (∀ p f, TPath.PathInv (TPath.absReplaceFilename p f)) ∧
    (∀ p f, TPath.PathInv (TPath.relReplaceFilename p f)) := by
  refine ⟨?_, ?_, ?_, ?_, ?_, ?_, ?_, ?_, ?_, ?_, ?_⟩
  · intro s p h
    rw [TPath.absolutePathNew_normalize h]
    exact TPath.pathInv_normalize _
  · intro s p h
    rw [TPath.relativePathNew_normalize h]
    exact TPath.pathInv_normalize _
  · intro p args; exact TPath.pathInv_cloneAbs _
  · intro p args; exact TPath.pathInv_cloneRel _
  · intro p args; exact TPath.pathInv_cloneAbs _
  · intro p; exact TPath.pathInv_cloneAbs _
  · intro p; exact TPath.pathInv_cloneRel _
  · intro p np; exact TPath.pathInv_cloneAbs _
  · intro p np; exact TPath.pathInv_cloneRel _
  · intro p f
    unfold TPath.absReplaceFilename TPath.absJoin
    exact TPath.pathInv_cloneAbs _
  · intro p f
    unfold TPath.relReplaceFilename TPath.relJoin
    exact TPath.pathInv_cloneRel _

/-- C1 (witness): the invariant theorem applied at the concrete accepted
input `'/a/b'`. -/
theorem c1_segment_invariant_witness :
    TPath.absolutePathNew (strL "/a/b") = some (strL "/a/b") ∧
    TPath.PathInv (strL "/a/b") :=
  ⟨by decide, c1_segment_invariant.1 (strL "/a/b") (strL "/a/b") (by decide)⟩

/-- C2: path normalization (the plain-path normalizer of path-tools) is
idempotent: `normalize (normalize s) = normalize s` for every string. -/
theorem c2_normalize_idempotent (s : Str) :
    TPath.normalize (TPath.normalize s) = TPath.normalize s :=
  TPath.normalize_idem s

/-- C3 (counterexample): `relativeTo` is not a right inverse of `join`
for every pair of absolute paths: with `base = AbsolutePath('/..')` and
`child = AbsolutePath('/a')` (both accepted by the constructor),
`child.relativeTo(base)` is `'../a'` but `base.join('../a')` is
`'/../../a'`, which does not equal `child`. -/
theorem c3_relativeTo_join_counterexample :
    TPath.absolutePathNew (strL "/..") = some (strL "/..") ∧
    TPath.absolutePathNew (strL "/a") = some (strL "/a") ∧
    TPath.relativeToAbs (strL "/a") (strL "/..") = some (strL "../a") ∧
    TPath.absJoin (strL "/..") [strL "../a"] = strL "/../../a" ∧
    TPath.equalsAbs (TPath.absJoin (strL "/..") [strL "../a"]) (strL "/a")
      = false := by decide

/-- C3 (amended): for every pair of constructed absolute paths `base` and
`child` such that `base` contains no `'..'` segment,
`base.join(child.relativeTo(base)).equals(child)` holds (`relativeTo`
emits one `'..'` per base segment remaining after the longest common
segment run followed by the child's remaining segments, and `'.'` when
the paths are equal; bases that escape the root, such as `'/..'`, break
the inverse). -/
theorem c3_relativeTo_join_inverse (sb sc b c : Str)
    (hb : TPath.absolutePathNew sb = some b)
    (hc : TPath.absolutePathNew sc = some c)
    (hdd : ∀ s ∈ TPath.segmentsOf b, s ≠ TPath.dd) :
    ∃ r, TPath.relativeToAbs c b = some r ∧
      TPath.equalsAbs (TPath.absJoin b [r]) c = true := by
  have hbeq := TPath.absolutePathNew_eq hb
  have hceq := TPath.absolutePathNew_eq hc
  subst hbeq
  subst hceq
  have hBn := TPath.seqOf_normList sb
  have hBns := TPath.seqOf_noSep sb
  have hCn := TPath.seqOf_normList sc
  have hCns := TPath.seqOf_noSep sc
  rw [TPath.segmentsOf_absForm hBn hBns] at hdd
  refine ⟨TPath.relForm (List.replicate
      ((TPath.seqOf sb).length - TPath.lcpLen (TPath.seqOf sb) (TPath.seqOf sc))
        TPath.dd
      ++ (TPath.seqOf sc).drop
          (TPath.lcpLen (TPath.seqOf sb) (TPath.seqOf sc))), ?_, ?_⟩
  · unfold TPath.relativeToAbs
    rw [TPath.relative_absForm hBn hBns hCn hCns]
    unfold TPath.relativePathNew
    rw [if_neg (by
      rw [TPath.isAbsolute_relForm (TPath.R_normList hdd hCn)
        (TPath.R_noSep hCns)]
      simp)]
    rw [TPath.normalize_relForm_fix (TPath.R_normList hdd hCn)
      (TPath.R_noSep hCns)]
  · rw [TPath.absJoin_inverse hBn hBns hdd hCn hCns]
    exact TPath.equalsAbs_absForm hCn hCns

/-- C3 (witness): the inverse theorem applied at `base = '/a/b'` and
`child = '/a/x/y'`. -/
theorem c3_relativeTo_join_inverse_witness :
    (TPath.absolutePathNew (strL "/a/b") = some (strL "/a/b") ∧
     TPath.absolutePathNew (strL "/a/x/y") = some (strL "/a/x/y") ∧
     ∀ s ∈ TPath.segmentsOf (strL "/a/b"), s ≠ TPath.dd) ∧
    ∃ r, TPath.relativeToAbs (strL "/a/x/y") (strL "/a/b") = some r ∧
      TPath.equalsAbs (TPath.absJoin (strL "/a/b") [r]) (strL "/a/x/y") = true :=
  ⟨⟨by decide, by decide, by decide⟩,
    c3_relativeTo_join_inverse (strL "/a/b") (strL "/a/x/y") _ _
      (by decide) (by decide) (by decide)⟩

/-- C4: `resolve` behaves like `join` applied to the suffix of the
argument list starting at its last absolute element (an absolute argument
discards everything accumulated so far, the last absolute argument wins;
an `AbsolutePath` object stringifies to a string starting with `'/'`, so
string arguments cover both cases); the result is always an absolute
path; and concretely
`AbsolutePath('/foo/bar').resolve('demo1/src', '/etc/config', 'index.ts')`
equals `AbsolutePath('/etc/config/index.ts')`. -/
theorem c4_resolve_discards_before_last_absolute :
    (∀ l : List Str, TPath.resolveP l = TPath.joinP (TPath.lastAbsSuffix l)) ∧
    (∀ p args, TPath.absResolve p args
      = TPath.cloneAbs (TPath.joinP (TPath.lastAbsSuffix
          (p :: args.filter TPath.strTruthy)))) ∧
    (∀ p args, TPath.isAbsolute (TPath.absResolve p args) = true) ∧
    (TPath.absolutePathNew (strL "/foo/bar")).map
        (fun p => TPath.equalsAbs
          (TPath.absResolve p [strL "demo1/src", strL "/etc/config", strL "index.ts"])
          (strL "/etc/config/index.ts"))
      = some true ∧
    TPath.absolutePathNew (strL "/etc/config/index.ts")
      = some (strL "/etc/config/index.ts") := by
  refine ⟨fun l => TPath.resolveP_eq_joinP l, ?_, ?_, by decide, by decide⟩
  · intro p args
    unfold TPath.absResolve
    rw [TPath.resolveP_eq_joinP]
  · intro p args
    exact TPath.isAbsolute_cloneAbs _

/-- C5 counterexample: the URL decoration parser does not split at the
last `'#'` at or after the last `'?'` of the whole string. It scans only
the substring after the last `'/'`, so for `'/a#f/g'` the code keeps the
whole string as pathname with no fragment, while the claimed rule would
give pathname `'/a'` and fragment `'f/g'`; for `'/a?b=c/d#f'` the claimed
rule would give pathname `'/a'` and query `'b=c/d'`, the code gives
pathname `'/a?b=c/d'` and no query. -/
theorem c5_last_hash_counterexample :
    TUrl.splitDecorations (strL "/a?b=c/d#f") =
      (strL "/a?b=c/d", none, some (strL "f")) ∧
    TUrl.claimSplitDecorations (strL "/a?b=c/d#f") =
      (strL "/a", some (strL "b=c/d"), some (strL "f")) ∧
    TUrl.splitDecorations (strL "/a#f/g") = (strL "/a#f/g", none, none) ∧
    TUrl.claimSplitDecorations (strL "/a#f/g") =
      (strL "/a", none, some (strL "f/g")) ∧
    TUrl.parsePath (strL "/a#f/g") =
      Except.ok ⟨strL "/a#f/g", none, none⟩ := by
  decide

/-- C5 (amended): for every input string, the URL decoration parser
first cuts after the last `'/'`; only the remainder is scanned, at its
first `'#'` for the fragment and then at its first `'?'` for the query
substring, everything up to and including the last `'/'` staying in the
pathname. On `'/a?b=c/d#f'` this yields pathname `'/a?b=c/d'`, no query
and fragment `'f'`. -/
theorem c5_decoration_split_after_last_slash :
    (∀ s : Str, TUrl.splitDecorations s = TUrl.specSplitDecorations s) ∧
    TUrl.parsePath (strL "/a?b=c/d#f") =
      Except.ok ⟨strL "/a?b=c/d", none, some (strL "f")⟩ :=
  ⟨TUrl.splitDecorations_eq_spec, by decide⟩

/-- C6: URL paths distinguish absent from empty query and fragment: a
constructor argument with no `'?'` yields an `undefined` query, a bare
trailing `'?'` an empty query object; no `'#'` yields an `undefined`
fragment, a bare trailing `'#'` the empty-string fragment; concretely
for `'/a'`, `'/a?'` and `'/a#'`. -/
theorem c6_absent_vs_empty_query_fragment :
    (∀ (s : Str) (u : TUrl.Url), TUrl.mkRootPathUrl s = Except.ok u →
      '?' ∉ s → TUrl.queryU u = none) ∧
    (∀ (s : Str) (u : TUrl.Url), TUrl.mkRelativePathUrl s = Except.ok u →
      '?' ∉ s → TUrl.queryU u = none) ∧
    (∀ (s : Str) (u : TUrl.Url), TUrl.mkRootPathUrl s = Except.ok u →
      '#' ∉ s → TUrl.fragmentU u = none) ∧
    (∀ (s : Str) (u : TUrl.Url), TUrl.mkRelativePathUrl s = Except.ok u →
      '#' ∉ s → TUrl.fragmentU u = none) ∧
    (∀ s : Str, '?' ∉ s → '#' ∉ s →
      (TUrl.parsePath (s ++ ['?'])).map TUrl.UrlParts.query =
        Except.ok (some [])) ∧
    (∀ s : Str, '?' ∉ s → '#' ∉ s →
      (TUrl.parsePath (s ++ ['#'])).map TUrl.UrlParts.fragment =
        Except.ok (some [])) ∧
    (TUrl.mkRootPathUrl (strL "/a")).map TUrl.queryU = Except.ok none ∧
    (TUrl.mkRootPathUrl (strL "/a?")).map TUrl.queryU = Except.ok (some []) ∧
    (TUrl.mkRootPathUrl (strL "/a")).map TUrl.fragmentU = Except.ok none ∧
    (TUrl.mkRootPathUrl (strL "/a#")).map TUrl.fragmentU =
      Except.ok (some []) := by
  refine ⟨?_, ?_, ?_, ?_, ?_, ?_, by decide, by decide, by decide, by decide⟩
  · intro s u hmk hq
    have hp := TUrl.mk_inv_root s u hmk
    rw [TUrl.parsePath_of_query_none s (TUrl.splitDecorations_query_none s hq)] at hp
    injection hp with h2
    unfold TUrl.queryU
    rw [← h2]
  · intro s u hmk hq
    have hp := TUrl.mk_inv_rel s u hmk
    rw [TUrl.parsePath_of_query_none s (TUrl.splitDecorations_query_none s hq)] at hp
    injection hp with h2
    unfold TUrl.queryU
    rw [← h2]
  · intro s u hmk hh
    have hp := TUrl.mk_inv_root s u hmk
    cases hq2 : (TUrl.splitDecorations s).2.1 with
    | none =>
      rw [TUrl.parsePath_of_query_none s hq2] at hp
      injection hp with h2
      unfold TUrl.fragmentU
      rw [← h2]
      exact TUrl.splitDecorations_fragment_none s hh
    | some t =>
      rw [TUrl.parsePath_of_query_some s t hq2] at hp
      cases hpq : TUrl.parseQuery t with
      | error e =>
        rw [hpq] at hp
        exact Except.noConfusion hp
      | ok q0 =>
        rw [hpq] at hp
        have h2 := TUrl.jok_inj hp
        unfold TUrl.fragmentU
        rw [← h2]
        exact TUrl.splitDecorations_fragment_none s hh
  · intro s u hmk hh
    have hp := TUrl.mk_inv_rel s u hmk
    cases hq2 : (TUrl.splitDecorations s).2.1 with
    | none =>
      rw [TUrl.parsePath_of_query_none s hq2] at hp
      injection hp with h2
      unfold TUrl.fragmentU
      rw [← h2]
      exact TUrl.splitDecorations_fragment_none s hh
    | some t =>
      rw [TUrl.parsePath_of_query_some s t hq2] at hp
      cases hpq : TUrl.parseQuery t with
      | error e =>
        rw [hpq] at hp
        exact Except.noConfusion hp
      | ok q0 =>
        rw [hpq] at hp
        have h2 := TUrl.jok_inj hp
        unfold TUrl.fragmentU
        rw [← h2]
        exact TUrl.splitDecorations_fragment_none s hh
  · intro s hq hh
    have hsd : TUrl.splitDecorations (s ++ ['?']) = (s, some [], none) :=
      TUrl.splitDecorations_decorated s (some []) none hq hh
        (fun t ht => by cases ht; exact ⟨by simp, by simp⟩)
        (fun t ht => Option.noConfusion ht)
    have hq1 : (TUrl.splitDecorations (s ++ ['?'])).2.1 = some [] := by
      rw [hsd]
    rw [TUrl.parsePath_of_query_some (s ++ ['?']) [] hq1]
    rfl
  · intro s hq hh
    have hsd : TUrl.splitDecorations (s ++ ['#']) = (s, none, some []) :=
      TUrl.splitDecorations_decorated s none (some []) hq hh
        (fun t ht => Option.noConfusion ht)
        (fun t ht => by cases ht; simp)
    have hq1 : (TUrl.splitDecorations (s ++ ['#'])).2.1 = none := by
      rw [hsd]
    rw [TUrl.parsePath_of_query_none (s ++ ['#']) hq1, hsd]
    rfl

/-- Witness for C6: the universal parts applied at `'/a'` and at a bare
trailing `'?'`. -/
theorem c6_absent_vs_empty_query_fragment_witness :
    TUrl.queryU ⟨TUrl.UrlKind.root, ⟨strL "/a", none, none⟩⟩ = none ∧
    (TUrl.parsePath (strL "/a" ++ ['?'])).map TUrl.UrlParts.query =
      Except.ok (some []) := by
  constructor
  · exact c6_absent_vs_empty_query_fragment.1 (strL "/a")
      ⟨TUrl.UrlKind.root, ⟨strL "/a", none, none⟩⟩ (by decide) (by decide)
  · exact c6_absent_vs_empty_query_fragment.2.2.2.2.1 (strL "/a")
      (by decide) (by decide)

/-- C7 counterexample: on a directory URL path the filename-derived
accessors do not throw: `filename`, `stem` and `extension` all return
`undefined` (only the replace/transform methods throw). -/
theorem c7_directory_accessor_counterexample :
    (TUrl.mkRootPathUrl (strL "/foo/bar/")).map TUrl.isDirectoryU =
      Except.ok true ∧
    (TUrl.mkRootPathUrl (strL "/foo/bar/")).bind TUrl.filenameU =
      Except.ok none ∧
    (TUrl.mkRootPathUrl (strL "/foo/bar/")).bind TUrl.stemU =
      Except.ok none ∧
    (TUrl.mkRootPathUrl (strL "/foo/bar/")).bind TUrl.extensionU =
      Except.ok none := by
  decide

/-- C7 (amended): on every URL path with `isDirectory` true the
properties `filename`, `stem` and `extension` return `undefined` without
throwing, while the methods `replaceFilename`, `replaceStem`,
`replaceExtension` and `transformFilename` throw an error whose message
contains `"directory"`; in particular `RootPathUrl('/foo/bar/')`
`.replaceExtension('.jpg')` throws with that message. -/
theorem c7_directory_filename_operations :
    (∀ u : TUrl.Url, TUrl.isDirectoryU u = true →
      TUrl.filenameU u = Except.ok none ∧
      TUrl.stemU u = Except.ok none ∧
      TUrl.extensionU u = Except.ok none ∧
      (∀ nf, TUrl.IsDirErr (TUrl.replaceFilenameU u nf)) ∧
      (∀ ns, TUrl.IsDirErr (TUrl.replaceStemU u ns)) ∧
      (∀ ne, TUrl.IsDirErr (TUrl.replaceExtensionU u ne)) ∧
      (∀ fn, TUrl.IsDirErr (TUrl.transformFilenameU u fn))) ∧
    (TUrl.mkRootPathUrl (strL "/foo/bar/")).bind
        (fun u => TUrl.replaceExtensionU u (strL ".jpg")) =
      Except.error (TUrl.JsErr.error
        (strL "Can't replaceExtension, directory path has no filename: /foo/bar/")) := by
  refine ⟨fun u h => ?_, by decide⟩
  have hf : TUrl.filenameU u = Except.ok none := TUrl.filenameU_dir u h
  refine ⟨hf, ?_, ?_, TUrl.replaceFilenameU_dir u h, TUrl.replaceStemU_dir u h,
    TUrl.replaceExtensionU_dir u h, TUrl.transformFilenameU_dir u h⟩
  · unfold TUrl.stemU
    rw [hf]
    rfl
  · unfold TUrl.extensionU
    rw [hf]
    rfl

/-- Witness for C7: the universal part applied to the directory URL path
`/foo/bar/`. -/
theorem c7_directory_filename_operations_witness :
    TUrl.stemU ⟨TUrl.UrlKind.root, ⟨strL "/foo/bar/", none, none⟩⟩ =
      Except.ok none ∧
    TUrl.IsDirErr (TUrl.replaceExtensionU
      ⟨TUrl.UrlKind.root, ⟨strL "/foo/bar/", none, none⟩⟩ (strL ".jpg")) := by
  have h := c7_directory_filename_operations.1
    ⟨TUrl.UrlKind.root, ⟨strL "/foo/bar/", none, none⟩⟩ (by decide)
  exact ⟨h.2.1, h.2.2.2.2.2.1 (strL ".jpg")⟩

/-- C8 counterexample: serialization does not round-trip with parsing
for arbitrary reserved characters: a pathname containing `'#'` is
percent-encoded by `partsToString`, and parsing the result keeps the
escape, so the original parts do not come back. -/
theorem c8_roundtrip_counterexample :
    TUrl.partsToString ⟨strL "a#b", none, none⟩ = strL "a%23b" ∧
    TUrl.parsePath (TUrl.partsToString ⟨strL "a#b", none, none⟩) =
      Except.ok ⟨strL "a%23b", none, none⟩ ∧
    TUrl.parsePath (TUrl.partsToString ⟨strL "a#b", none, none⟩) ≠
      Except.ok ⟨strL "a#b", none, none⟩ := by
  decide

/-- C8 (amended): parsing the serialization of well-formed parts (safe
pathname characters in normal form, safe distinct query keys with
well-formed values, safe fragment) recovers the parts; and serialization
never double-encodes: on every already-percent-encoded component or
pathname string the encoders are the identity, each re-encoded `%25XY`
collapsing back to `%XY`, e.g. on `/a%20b`. -/
theorem c8_encode_parse_roundtrip :
    (∀ p : TUrl.UrlParts, TUrl.partsOk p →
      TUrl.parsePath (TUrl.partsToString p) = Except.ok p) ∧
    (∀ e : Str, TUrl.EncOk TUrl.componentUnescaped e →
      TUrl.encodeComponent e = e) ∧
    (∀ e : Str, TUrl.EncOk TUrl.pathPlain e → TUrl.encodePathname e = e) ∧
    TUrl.encodePathname (strL "/a%20b") = strL "/a%20b" :=
  ⟨TUrl.parsePath_partsToString, TUrl.encodeComponent_encOk,
    TUrl.encodePathname_encOk, by decide⟩

/-- Witness for C8: the round trip applied at concrete parts with path,
multi-valued query and fragment, and the component encoder applied to an
already-encoded string. -/
theorem c8_encode_parse_roundtrip_witness :
    TUrl.parsePath (TUrl.partsToString
      ⟨strL "/docs/a", some [(strL "k", TUrl.QVal.one (strL "v")),
        (strL "m", TUrl.QVal.many [strL "x", strL "y"])],
        some (strL "frag")⟩) =
      Except.ok ⟨strL "/docs/a", some [(strL "k", TUrl.QVal.one (strL "v")),
        (strL "m", TUrl.QVal.many [strL "x", strL "y"])],
        some (strL "frag")⟩ ∧
    TUrl.encodeComponent (strL "a%41b") = strL "a%41b" := by
  constructor
  · refine c8_encode_parse_roundtrip.1 _ ⟨⟨?_, ?_⟩, ?_, ?_⟩
    · exact (by decide : ∀ c ∈ strL "/docs/a", TUrl.pathPlain c = true)
    · decide
    · show TUrl.queryOk _
      refine ⟨by decide, ?_⟩
      intro e he
      rcases List.mem_cons.1 he with h | h
      · subst h
        exact ⟨(by decide : ∀ c ∈ strL "k", TUrl.componentUnescaped c = true),
          (by decide : ∀ c ∈ strL "v", TUrl.componentUnescaped c = true)⟩
      · rcases List.mem_cons.1 h with h | h
        · subst h
          refine ⟨(by decide : ∀ c ∈ strL "m", TUrl.componentUnescaped c = true),
            by decide, by decide, ?_⟩
          intro v hv
          rcases List.mem_cons.1 hv with h2 | h2
          · subst h2
            exact (by decide : ∀ c ∈ strL "x", TUrl.componentUnescaped c = true)
          · rcases List.mem_cons.1 h2 with h3 | h3
            · subst h3
              exact (by decide : ∀ c ∈ strL "y", TUrl.componentUnescaped c = true)
            · exact absurd h3 (List.not_mem_nil v)
        · exact absurd h (List.not_mem_nil e)
    · exact (by decide : ∀ c ∈ strL "frag", TUrl.componentUnescaped c = true)
  · exact c8_encode_parse_roundtrip.2.1 (strL "a%41b")
      (TUrl.EncOk.chr (by decide) (by decide)
        (TUrl.EncOk.esc (by decide) (by decide) (by decide) (by decide)
          (TUrl.EncOk.chr (by decide) (by decide) TUrl.EncOk.nil)))

/-- C9 counterexample: `toString` does not sort query keys: two URL
paths whose queries hold the same key/value pairs in different insertion
orders serialize differently, and a parsed unsorted query keeps its
order in `toString`. -/
theorem c9_sorted_counterexample :
    TUrl.queryToString (some [(strL "b", TUrl.QVal.one (strL "1")),
      (strL "a", TUrl.QVal.one (strL "2"))]) = strL "?b=1&a=2" ∧
    TUrl.queryToString (some [(strL "a", TUrl.QVal.one (strL "2")),
      (strL "b", TUrl.QVal.one (strL "1"))]) = strL "?a=2&b=1" ∧
    List.Perm [(strL "b", TUrl.QVal.one (strL "1")),
      (strL "a", TUrl.QVal.one (strL "2"))]
      [(strL "a", TUrl.QVal.one (strL "2")),
        (strL "b", TUrl.QVal.one (strL "1"))] ∧
    TUrl.queryToString (some [(strL "b", TUrl.QVal.one (strL "1")),
      (strL "a", TUrl.QVal.one (strL "2"))]) ≠
      TUrl.queryToString (some [(strL "a", TUrl.QVal.one (strL "2")),
        (strL "b", TUrl.QVal.one (strL "1"))]) ∧
    (TUrl.mkRootPathUrl (strL "/p?b=1&a=2")).map TUrl.toStringU =
      Except.ok (strL "/p?b=1&a=2") := by
  decide

/-- C9 (amended): query serialization emits the keys in the object's
insertion order, not sorted; array values expand to repeated `key=value`
pairs in array order; parsing a serialized well-formed query map
recovers it unchanged, so serialization is deterministic for a given
insertion order. -/
theorem c9_query_insertion_order :
    (∀ q : TUrl.Query, TUrl.queryOk q →
      TUrl.queryToString (some q) = '?' :: TUrl.rawQueryStr q ∧
      TUrl.parseQuery (TUrl.rawQueryStr q) = Except.ok q) ∧
    TUrl.queryToString
        (some [(strL "k", TUrl.QVal.many [strL "x", strL "y", strL "z"])]) =
      strL "?k=x&k=y&k=z" :=
  ⟨fun q hq => ⟨TUrl.queryToString_plain q hq, TUrl.parseQuery_rawQueryStr q hq⟩,
    by decide⟩

/-- Witness for C9: the universal part applied to a two-key query map in
unsorted insertion order. -/
theorem c9_query_insertion_order_witness :
    TUrl.queryToString (some [(strL "b", TUrl.QVal.one (strL "1")),
      (strL "a", TUrl.QVal.one (strL "2"))]) =
      '?' :: TUrl.rawQueryStr [(strL "b", TUrl.QVal.one (strL "1")),
        (strL "a", TUrl.QVal.one (strL "2"))] ∧
    TUrl.parseQuery (TUrl.rawQueryStr [(strL "b", TUrl.QVal.one (strL "1")),
      (strL "a", TUrl.QVal.one (strL "2"))]) =
      Except.ok [(strL "b", TUrl.QVal.one (strL "1")),
        (strL "a", TUrl.QVal.one (strL "2"))] := by
  have hq : TUrl.queryOk [(strL "b", TUrl.QVal.one (strL "1")),
      (strL "a", TUrl.QVal.one (strL "2"))] := by
    refine ⟨by decide, ?_⟩
    intro e he
    rcases List.mem_cons.1 he with h | h
    · subst h
      exact ⟨(by decide : ∀ c ∈ strL "b", TUrl.componentUnescaped c = true),
        (by decide : ∀ c ∈ strL "1", TUrl.componentUnescaped c = true)⟩
    · rcases List.mem_cons.1 h with h | h
      · subst h
        exact ⟨(by decide : ∀ c ∈ strL "a", TUrl.componentUnescaped c = true),
          (by decide : ∀ c ∈ strL "2", TUrl.componentUnescaped c = true)⟩
      · exact absurd h (List.not_mem_nil e)
  exact c9_query_insertion_order.1 _ hq

/-- C10: `equals` on a string argument compares raw serialized strings:
it returns `true` exactly when `toString` equals the argument, with no
parsing or normalization of the argument; so the URL path `'foo/bar'`
does not equal the strings `'foo//bar'` or `'foo/./bar'`, even though
both parse to the same path. -/
theorem c10_equals_is_raw_string_comparison :
    (∀ (u : TUrl.Url) (s : Str), TUrl.equalsU u s = true ↔
      TUrl.toStringU u = s) ∧
    (TUrl.mkRelativePathUrl (strL "foo/bar")).map (fun u =>
        (TUrl.toStringU u, TUrl.equalsU u (strL "foo//bar"),
          TUrl.equalsU u (strL "foo/./bar"))) =
      Except.ok (strL "foo/bar", false, false) ∧
    (TUrl.mkRelativePathUrl (strL "foo//bar")).map TUrl.toStringU =
      Except.ok (strL "foo/bar") ∧
    (TUrl.mkRelativePathUrl (strL "foo/./bar")).map TUrl.toStringU =
      Except.ok (strL "foo/bar") := by
  refine ⟨fun u s => ?_, by decide, by decide, by decide⟩
  unfold TUrl.equalsU
  exact beq_iff_eq

end Claims12
